import Mathlib

/-!
Verification development for the Design-of-Experiments generation and encoding
engine of the `kn_extension_simulation` repository.

The embedding follows `src/nodes/design_of_experiments.py` (node `execute`:
input merging, full-factorial / LHS / Plackett-Burman generation, metadata
insertion, wide-to-long flattening) and `src/utils/factor_utils.py`
(`factor_string_mapping`, `doe_string_mapping`).

Conventions of the embedding:
* A pandas cell value is `Val` (a string or a number); Python numbers
  (ints and floats) are modelled as exact rationals.
* A missing cell (`NaN`) is `Option.none`; `pd.notna` is `Option.isSome`.
* A pandas `DataFrame` is an ordered association list of named columns,
  `List (String × List Val)`; the Python dicts that the code builds are
  ordered association lists with insert-or-overwrite (`upsert`) semantics.
* A Python function that can raise maps to `Except String`; the error string
  is the message built at the `raise` site.
* The external `pyDOE3` dependency is embedded by its documented behaviour:
  `fullfact` returns the coded index matrix whose entry at row `r`, column `i`
  is `(r / (levels.take i).prod) % levels[i]` (first factor varying fastest;
  e.g. `fullfact [2,3]` = `[[0,0],[1,0],[0,1],[1,1],[0,2],[1,2]]`), while for
  `lhs` and `pbdesign` the sampled unit-hypercube matrix `U` resp. the coded
  plus-minus-one matrix `M` is taken as a parameter, with its documented shape
  properties as hypotheses.
-/

namespace DoE

/-- A pandas cell value: a Python string or a Python number
(ints and floats modelled as exact rationals). -/
inductive Val where
  | str (s : String)
  | num (q : ℚ)
deriving DecidableEq, Repr

instance {ε α : Type} [DecidableEq ε] [DecidableEq α] : DecidableEq (Except ε α) :=
  fun a b =>
    match a, b with
    | .ok x, .ok y => decidable_of_iff (x = y) (by simp)
    | .error x, .error y => decidable_of_iff (x = y) (by simp)
    | .ok _, .error _ => isFalse (by simp)
    | .error _, .ok _ => isFalse (by simp)

/-- Python `s.split(":")` on the character list, with an accumulator for the
current segment. -/
def splitColonAux : List Char → List Char → List String
  | [], acc => [⟨acc.reverse⟩]
  | c :: rest, acc =>
      if c = ':' then ⟨acc.reverse⟩ :: splitColonAux rest []
      else splitColonAux rest (c :: acc)

/-- Python `s.split(":")`: the segments between the colons (`[""]` for the
empty string, empty segments preserved). -/
def splitColon (s : String) : List String := splitColonAux s.toList []

/-- Python `s.upper()` (ASCII case mapping, as `str.upper` on the ASCII
labels this development manipulates). -/
def pyUpper (s : String) : String := ⟨s.toList.map Char.toUpper⟩

/-- Python `s.startswith(pre)`. -/
def pyStartsWith (s pre : String) : Bool := pre.toList.isPrefixOf s.toList

/-- Python `s.replace(pat, "")` on character lists: remove the leftmost
occurrence of `pat` repeatedly (non-overlapping, left to right); the first
argument is recursion fuel (the list length suffices). -/
def removeOccursAux (pat : List Char) : ℕ → List Char → List Char
  | _, [] => []
  | 0, l => l
  | fuel + 1, c :: rest =>
      if pat.isPrefixOf (c :: rest) ∧ ¬ pat.isEmpty then
        removeOccursAux pat fuel ((c :: rest).drop pat.length)
      else c :: removeOccursAux pat fuel rest

/-- Python `s.replace(pat, "")`: every occurrence of `pat` removed. -/
def pyReplaceEmpty (s pat : String) : String :=
  ⟨removeOccursAux pat.toList s.toList.length s.toList⟩

/-- Whether a value is numeric (used for the pandas
`is_numeric_dtype` check on a column of levels). -/
def Val.isNum : Val → Bool
  | .str _ => false
  | .num _ => true

/-- Default value used for (always in-range) list indexing. -/
def vdflt : Val := Val.str ""

/-- First-seen-order deduplication against an accumulator of already seen
values; the loop body of `unique_levels` in
`design_of_experiments.py` (lines 117-124). -/
def uniqueLoop : List Val → List Val → List Val
  | [], _ => []
  | v :: rest, seen =>
      if v ∈ seen then uniqueLoop rest seen else v :: uniqueLoop rest (v :: seen)

/-- `unique_levels` from `design_of_experiments.py`: drop missing entries,
keep first-seen order, remove duplicates. -/
def unique_levels (colValues : List (Option Val)) : List Val :=
  uniqueLoop (colValues.filterMap id) []

/-- The raw merged factor dictionary: factor column name to list of cells. -/
abbrev RawDict := List (String × List (Option Val))

/-- `levels_map` of `design_of_experiments.py` line 127:
each factor's deduplicated level list. -/
def levelsMap (d : RawDict) : List (String × List Val) :=
  d.map (fun p => (p.1, unique_levels p.2))

/-- `level_counts` of `design_of_experiments.py` line 128:
`max 1 (number of levels)` per factor. -/
def levelCounts (d : RawDict) : List ℕ :=
  (levelsMap d).map (fun p => max 1 p.2.length)

/-- One coded row of the pyDOE3 `fullfact` matrix: digit `i` of the
mixed-radix representation of `r` with the first factor least significant,
`(fullfactRow L r).get i = (r / (L.take i).prod) % L.get i`. -/
def fullfactRow : List ℕ → ℕ → List ℕ
  | [], _ => []
  | L :: rest, r => (r % L) :: fullfactRow rest (r / L)

/-- The pyDOE3 `fullfact` coded matrix for the given level counts
(first factor varying fastest). -/
def fullfact (levelCountList : List ℕ) : List (List ℕ) :=
  (List.range levelCountList.prod).map (fullfactRow levelCountList)

/-- Mixed-radix encoding, inverse of `fullfactRow`. -/
def encodeRow : List ℕ → List ℕ → ℕ
  | [], _ => 0
  | _ :: _, [] => 0
  | L :: rest, d :: ds => d + L * encodeRow rest ds

/-- Insert commas every three digits from the right into a reversed digit
list; helper for Python's `f"{n:,}"` format. -/
def commaGroupRev : List Char → List Char
  | a :: b :: c :: d :: rest => a :: b :: c :: ',' :: commaGroupRev (d :: rest)
  | l => l

/-- Python's `f"{n:,}"`: decimal digits grouped in threes by commas. -/
def commaFmt (n : ℕ) : String :=
  ⟨(commaGroupRev (toString n).toList.reverse).reverse⟩

/-- Python's `f"{i:06d}"`: decimal representation left-padded
with zeros to width 6. -/
def padZeros6 (i : ℕ) : String :=
  ⟨List.replicate (6 - (toString i).length) '0' ++ (toString i).toList⟩

/-- The configuration id of row `i`, `f"configuration_{i:06d}"`
(`design_of_experiments.py` line 217). -/
def configId (i : ℕ) : String := "configuration_" ++ padZeros6 i

/-- The error message raised when the full-factorial ceiling is exceeded
(`design_of_experiments.py` lines 138-141). -/
def explosionMsg (estRuns : ℕ) : String :=
  "Full factorial would generate " ++ commaFmt estRuns ++
    " rows (> 1,000,000). Please reduce factor levels."

/-- The error message raised when a factor has no levels
(`design_of_experiments.py` lines 150-151 and 174-175). -/
def noLevelsMsg (col : String) : String :=
  "Factor '" ++ col ++ "' has no defined levels."

/-- The per-column value construction of the FULLFAC branch
(`design_of_experiments.py` lines 147-152): column `j` maps each coded row's
`j`-th index into the factor's level list, raising if a factor has no
levels.  `j` is the running column index. -/
def fullfactCols :
    List (String × List Val) → List (List ℕ) → ℕ →
      Except String (List (String × List Val))
  | [], _, _ => .ok []
  | (c, lvls) :: rest, raw, j =>
      if lvls.isEmpty then .error (noLevelsMsg c)
      else
        match fullfactCols rest raw (j + 1) with
        | .error e => .error e
        | .ok tail => .ok ((c, raw.map (fun row => lvls.getD (row.getD j 0) vdflt)) :: tail)

/-- The FULLFAC branch of `DesignOfExperiments.execute`
(`design_of_experiments.py` lines 110-111 and 134-153): empty-input check,
combinatorial-explosion check, pyDOE3 `fullfact`, index-to-level mapping.
Returns the factor columns of the wide design (before metadata insertion). -/
def fullfactExecute (d : RawDict) : Except String (List (String × List Val)) :=
  if d.isEmpty then .error "No input data provided."
  else
    let counts := levelCounts d
    let estRuns := counts.prod
    if estRuns > 1000000 then .error (explosionMsg estRuns)
    else fullfactCols (levelsMap d) (fullfact counts) 0

/-- Number of rows of a column-major data frame: the common column length
(0 when there are no columns), as for `pd.DataFrame(dict)`. -/
def dfLen (data : List (String × List Val)) : ℕ :=
  match data with
  | [] => 0
  | c :: _ => c.2.length

/-- Row `r` of a column-major data frame (pandas row iteration order). -/
def dfRow (data : List (String × List Val)) (r : ℕ) : List Val :=
  data.map (fun c => c.2.getD r vdflt)

/-- All rows of a column-major data frame. -/
def dfRows (data : List (String × List Val)) : List (List Val) :=
  (List.range (dfLen data)).map (dfRow data)

/-- Metadata insertion (`design_of_experiments.py` lines 214-217):
`EXPERIMENT` at position 0, `CONFIGURATION` at position 1. -/
def insertMeta (experiment : String) (data : List (String × List Val)) :
    List (String × List Val) :=
  ("EXPERIMENT", List.replicate (dfLen data) (Val.str experiment)) ::
    ("CONFIGURATION", (List.range (dfLen data)).map (fun i => Val.str (configId i))) ::
      data

/-- Reference cartesian product of level lists (used to state exhaustiveness
of the full factorial). -/
def cartProd : List (List Val) → List (List Val)
  | [] => [[]]
  | l :: ls => (l.map (fun v => (cartProd ls).map (v :: ·))).flatten

/-! ### Latin hypercube sampling (`design_of_experiments.py` lines 155-180) -/

/-- The LHS discretization of one unit-hypercube coordinate
(`design_of_experiments.py` lines 177-178):
`np.clip(np.floor(u * L), 0, L - 1)`, as a natural index. -/
def clipIdx (u : ℚ) (L : ℕ) : ℕ :=
  (min (max (⌊u * (L : ℚ)⌋) 0) ((L : ℤ) - 1)).toNat

/-- The per-column value construction of the LHS branch
(`design_of_experiments.py` lines 171-179): column `j` discretizes the `j`-th
coordinate of each sampled point into the factor's level list, raising if a
factor has no levels. -/
def lhsCols :
    List (String × List Val) → List (List ℚ) → ℕ →
      Except String (List (String × List Val))
  | [], _, _ => .ok []
  | (c, lvls) :: rest, u, j =>
      if lvls.isEmpty then .error (noLevelsMsg c)
      else
        match lhsCols rest u (j + 1) with
        | .error e => .error e
        | .ok tail =>
            .ok ((c, u.map (fun urow =>
              lvls.getD (clipIdx (urow.getD j 0) lvls.length) vdflt)) :: tail)

/-- The LHS / space-filling-LHS branch of `DesignOfExperiments.execute`
(`design_of_experiments.py` lines 110-111 and 155-180).  The unit-hypercube
sample matrix `u` returned by `pyDOE3.lhs` (shape `samples × n_factors`,
entries in `[0,1]`) is a parameter of the embedding. -/
def lhsExecute (d : RawDict) (samples : ℕ) (u : List (List ℚ)) :
    Except String (List (String × List Val)) :=
  if d.isEmpty then .error "No input data provided."
  else if samples < 1 then .error "Samples must be >= 1."
  else lhsCols (levelsMap d) u 0

/-! ### Plackett-Burman (`design_of_experiments.py` lines 182-208) -/

/-- The error message of the Plackett-Burman cardinality check
(`design_of_experiments.py` lines 186-188). -/
def pbMsg (col : String) (distinct : ℕ) : String :=
  "Plackett–Burman requires exactly 2 distinct levels per factor. Factor '" ++
    col ++ "' has " ++ toString distinct ++ " distinct level(s)."

/-- Python's `len(set(lvls))`: the number of distinct values. -/
def setSize (lvls : List Val) : ℕ := (uniqueLoop lvls []).length

/-- The first factor failing the Plackett-Burman cardinality check
`len(lvls) != 2 or len(set(lvls)) != 2`
(`design_of_experiments.py` lines 184-185), with its distinct-level count. -/
def pbFirstBad (lm : List (String × List Val)) : Option (String × ℕ) :=
  lm.findSome? (fun p =>
    if p.2.length ≠ 2 ∨ setSize p.2 ≠ 2 then some (p.1, setSize p.2) else none)

/-- Minimum of the numeric values in a level list (Python `min(lvls)` on a
numeric column). -/
def vmin (lvls : List Val) : Val :=
  match lvls.filterMap (fun v => match v with | .num q => some q | .str _ => none) with
  | [] => vdflt
  | q :: qs => .num (qs.foldl min q)

/-- Maximum of the numeric values in a level list (Python `max(lvls)` on a
numeric column). -/
def vmax (lvls : List Val) : Val :=
  match lvls.filterMap (fun v => match v with | .num q => some q | .str _ => none) with
  | [] => vdflt
  | q :: qs => .num (qs.foldl max q)

/-- The low/high level pair of one factor
(`design_of_experiments.py` lines 198-202): min/max for numeric factors
(pandas numeric dtype, i.e. all levels numeric), first/second declared level
otherwise. -/
def pbLowHigh (lvls : List Val) : Val × Val :=
  if lvls.all Val.isNum then (vmin lvls, vmax lvls)
  else (lvls.getD 0 vdflt, lvls.getD 1 vdflt)

/-- The Plackett-Burman branch of `DesignOfExperiments.execute`
(`design_of_experiments.py` lines 110-111 and 182-208).  The coded
plus-minus-one matrix `m` returned by `pyDOE3.pbdesign` is a parameter of the
embedding; line 205 maps a coded entry `≤ 0` to the low level and any other
entry to the high level. -/
def pbExecute (d : RawDict) (m : List (List ℚ)) :
    Except String (List (String × List Val)) :=
  if d.isEmpty then .error "No input data provided."
  else
    let lm := levelsMap d
    match pbFirstBad lm with
    | some (c, k) => .error (pbMsg c k)
    | none =>
        .ok (lm.mapIdx (fun j p =>
          (p.1, m.map (fun mrow =>
            if mrow.getD j 0 ≤ 0 then (pbLowHigh p.2).1 else (pbLowHigh p.2).2))))

/-! ### Wide-to-long flattening (`design_of_experiments.py` lines 219-263) -/

/-- The six descriptive fields parsed from a wide-design column name. -/
structure ParsedCol where
  table : String
  col_uniqueid : String
  col_factor : String
  col_value : String
  unique_identifier : String
  factor : String
deriving DecidableEq, Repr

/-- Python `part.startswith("[") and "]" in part` with
`label = part[1:part.find("]")]` and `value = part[part.find("]")+1:]`
(`design_of_experiments.py` lines 238-241). -/
def parseBracket (part : String) : Option (String × String) :=
  match part.toList with
  | c :: rest =>
      if c = '[' ∧ rest.contains ']' then
        some (⟨rest.takeWhile (· ≠ ']')⟩, ⟨(rest.dropWhile (· ≠ ']')).drop 1⟩)
      else none
  | [] => none

/-- Insert-or-overwrite on an ordered association list
(Python dict assignment `d[k] = v`). -/
def upsert {β : Type} (m : List (String × β)) (k : String) (v : β) :
    List (String × β) :=
  match m with
  | [] => [(k, v)]
  | (k', v') :: rest => if k' = k then (k, v) :: rest else (k', v') :: upsert rest k v

/-- Python dict lookup `d.get(k)` on an ordered association list. -/
def dictGet {β : Type} (m : List (String × β)) (k : String) : Option β :=
  (m.find? (fun p => p.1 == k)).map (·.2)

/-- The label/value collection loop over the column-name segments after the
table name (`design_of_experiments.py` lines 237-243): bracketed segments go
into the label map with upper-cased labels, any other segment becomes the
value-column name (last one wins). -/
def collectParts :
    List String → List (String × String) → String →
      List (String × String) × String
  | [], m, vc => (m, vc)
  | p :: rest, m, vc =>
      match parseBracket p with
      | some (l, v) => collectParts rest (upsert m (pyUpper l) v) vc
      | none => collectParts rest m p

/-- Python code-point comparison of strings (`s1 <= s2`). -/
def charListLe : List Char → List Char → Bool
  | [], _ => true
  | _ :: _, [] => false
  | a :: as, b :: bs =>
      if a.val < b.val then true
      else if b.val < a.val then false
      else charListLe as bs

/-- Python string `<=`, code-point lexicographic. -/
def strLe (a b : String) : Bool := charListLe a.toList b.toList

/-- Insertion into a key-sorted association list. -/
def insertSorted (p : String × String) :
    List (String × String) → List (String × String)
  | [] => [p]
  | q :: rest => if strLe p.1 q.1 then p :: q :: rest else q :: insertSorted p rest

/-- Python `sorted(label_map.items())` (keys are unique, so tuple order is
key order). -/
def sortPairs : List (String × String) → List (String × String)
  | [] => []
  | p :: rest => insertSorted p (sortPairs rest)

/-- Column-name parsing on the already split segments
(`design_of_experiments.py` lines 228-246): a single segment is an
argument-based factor; otherwise the first segment is the table, bracketed
segments build the label map, and the alphabetically sorted label map yields
the unique-id pair then the factor pair, missing entries degrading to `"?"`. -/
def parseColParts (parts : List String) : ParsedCol :=
  match parts with
  | [only] => ⟨"ARGUMENT", only, only, only, only, only⟩
  | _ =>
      let table := parts.headD "?"
      let (labelMap, value_col) := collectParts parts.tail [] "?"
      let ls := sortPairs labelMap
      let (unique_col, unique_id) := ls.getD 0 ("?", "?")
      let (name_col, factor_name) := ls.getD 1 ("?", "?")
      ⟨table, unique_col, name_col, value_col, unique_id, factor_name⟩

/-- Column-name parsing (`parts = col.split(":")` then the branch on
`len(parts)`). -/
def parseCol (col : String) : ParsedCol := parseColParts (splitColon col)

/-- One row of the long-format output
(`design_of_experiments.py` lines 251-261). -/
structure LongRow where
  experiment : String
  configuration : Val
  table : String
  col_uniqueid : String
  col_factor : String
  col_value : String
  unique_identifier : String
  factor : String
  values : Val
deriving DecidableEq, Repr

/-- The named column of a data frame (empty when absent). -/
def lookupColumn (df : List (String × List Val)) (name : String) : List Val :=
  ((df.find? (fun c => c.1 == name)).getD (name, [])).2

/-- The wide-to-long flattening loop (`design_of_experiments.py` lines
219-263): for each row, for each column other than `EXPERIMENT` and
`CONFIGURATION`, parse the column name and emit one long row holding the
parsed descriptive fields and the cell value. -/
def flatten (experiment : String) (df : List (String × List Val)) :
    List LongRow :=
  ((List.range (dfLen df)).map (fun r =>
    (df.filter (fun c => !(c.1 == "EXPERIMENT" || c.1 == "CONFIGURATION"))).map
      (fun c =>
        let p := parseCol c.1
        { experiment := experiment
          configuration := (lookupColumn df "CONFIGURATION").getD r vdflt
          table := p.table
          col_uniqueid := p.col_uniqueid
          col_factor := p.col_factor
          col_value := p.col_value
          unique_identifier := p.unique_identifier
          factor := p.factor
          values := c.2.getD r vdflt }))).flatten

/-! ### Categorical encoding and label resolution (`factor_utils.py`) -/

/-- `factor_string_mapping` from `factor_utils.py` (lines 11-23): positional
integer codes and the reverse map from the code formatted as a string back to
the original label. -/
def factor_string_mapping (string_values : List String) :
    List ℕ × List (String × String) :=
  (List.range string_values.length,
    (List.range string_values.length).map
      (fun i => (toString i, string_values.getD i "")))

/-- Python's one-argument `round`: round half to even, on exact rationals.
Written on the numerator and denominator (`f` is the floor, `r` the
nonnegative remainder) so that it evaluates by kernel reduction. -/
def pyRound (q : ℚ) : ℤ :=
  let f := Int.fdiv q.num q.den
  let r := q.num - f * q.den
  if 2 * r < q.den then f
  else if (q.den : ℤ) < 2 * r then f + 1
  else if f % 2 = 0 then f else f + 1

/-- Decimal digit list to a natural number. -/
def digitsToNat (l : List Char) : ℕ :=
  l.foldl (fun a c => a * 10 + (c.toNat - 48)) 0

/-- Reference decimal digit list of a natural number (most significant
first); used to reason about `Nat.repr`. -/
def rep10 (n : ℕ) : List Char :=
  if n < 10 then [Nat.digitChar n]
  else rep10 (n / 10) ++ [Nat.digitChar (n % 10)]
termination_by n
decreasing_by
  simp_wf
  exact Nat.div_lt_self (by omega) (by omega)

/-- Python `float(s)` on a string, for plain decimal literals
(optional sign, integer digits, optional fractional digits); other accepted
Python forms (exponents, infinities) do not occur in this development's
inputs and are not modelled. `none` means `float` raises `ValueError`. -/
def parseDecimal (s : String) : Option ℚ :=
  let withSign : ℚ → List Char → Option ℚ := fun sign cs =>
    let intPart := cs.takeWhile Char.isDigit
    match cs.dropWhile Char.isDigit with
    | [] => if intPart.isEmpty then none else some (sign * digitsToNat intPart)
    | '.' :: frac =>
        if frac.all Char.isDigit ∧ ¬ (intPart.isEmpty ∧ frac.isEmpty) then
          some (sign * ((digitsToNat intPart : ℚ) +
            (digitsToNat frac : ℚ) / 10 ^ frac.length))
        else none
    | _ => none
  match s.toList with
  | '-' :: rest => withSign (-1) rest
  | '+' :: rest => withSign 1 rest
  | cs => withSign 1 cs

/-- Python `float(v)` on a cell value; `none` means it raises. -/
def pyFloat : Val → Option ℚ
  | .num q => some q
  | .str s => parseDecimal s

/-- The message of the `ValueError` that Python's `float` raises on a
non-numeric string. -/
def floatErrMsg (s : String) : String :=
  "could not convert string to float: '" ++ s ++ "'"

/-- The mapping-extraction loop of `doe_string_mapping`
(`factor_utils.py` lines 90-100): keep flow variables whose key starts with
`factor-mapping_`, strip that prefix (Python `str.replace`, removing every
occurrence), and take the decoded `{code: label}` dict.  JSON decoding of the
flow-variable payload is treated as given (the payloads are produced by
`json.dumps` in `get_values` and round-trip through `json.loads`). -/
def extractMappings (flowVars : List (String × List (String × String))) :
    List (String × List (String × String)) :=
  (flowVars.filter (fun p => pyStartsWith p.1 "factor-mapping_")).foldl
    (fun m p => upsert m (pyReplaceEmpty p.1 "factor-mapping_") p.2) []

/-- The axis-0 cell lambda of `doe_string_mapping`
(`factor_utils.py` lines 114-116):
`mapping.get(str(int(round(float(v)))), v) if pd.notna(v) else v`.
The `float` conversion is not guarded there, so a conversion failure raises
(modelled as `.error`). -/
def mapCell (mapping : List (String × String)) (cell : Option Val) :
    Except String (Option Val) :=
  match cell with
  | none => .ok none
  | some v =>
      match pyFloat v with
      | none => .error (floatErrMsg (match v with | .str s => s | .num _ => ""))
      | some q =>
          .ok (some (match dictGet mapping (toString (pyRound q)) with
            | some label => Val.str label
            | none => v))

/-- One column of the axis-0 branch of `doe_string_mapping`
(`factor_utils.py` lines 102-116): skip `CONFIGURATION`, look the mapping up
by the value-column suffix (the segment after the last colon), and — when a
non-empty mapping is found (Python dict truthiness) — apply `mapCell` to
every cell. -/
def axis0Col (mappings : List (String × List (String × String)))
    (c : String × List (Option Val)) : Except String (String × List (Option Val)) :=
  if c.1 = "CONFIGURATION" then .ok c
  else
    let value_col := (splitColon c.1).getLastD ""
    match dictGet mappings value_col with
    | none => .ok c
    | some mapping =>
        if mapping.isEmpty then .ok c
        else do
          let cells ← c.2.mapM (mapCell mapping)
          .ok (c.1, cells)

/-- `doe_string_mapping(df, flow_vars, axis=0)` from `factor_utils.py`
(lines 66-116): wide-format label resolution.  Cells here are `Option Val`
to express the `pd.notna` guard. -/
def doe_string_mapping_axis0 (df : List (String × List (Option Val)))
    (flowVars : List (String × List (String × String))) :
    Except String (List (String × List (Option Val))) :=
  df.mapM (axis0Col (extractMappings flowVars))

/-- `replace_value` from `factor_utils.py` (lines 120-131): the row-wise
resolver of the axis-1 branch; its `try`/`except` makes any conversion
failure return the original value. -/
def replace_value (mappings : List (String × List (String × String)))
    (row : LongRow) : Val :=
  match dictGet mappings row.col_value with
  | none => row.values
  | some mapping =>
      if mapping.isEmpty then row.values
      else
        match pyFloat row.values with
        | none => row.values
        | some q =>
            match dictGet mapping (toString (pyRound q)) with
            | some label => Val.str label
            | none => row.values

/-- `doe_string_mapping(df, flow_vars, axis=1)` from `factor_utils.py`
(lines 118-134): long-format label resolution, rewriting only the `VALUES`
field of each row. -/
def doe_string_mapping_axis1 (rows : List LongRow)
    (flowVars : List (String × List (String × String))) : List LongRow :=
  rows.map (fun row =>
    { row with values := replace_value (extractMappings flowVars) row })

/-! ### Helper definitions for the statements and proofs -/

/-- Indexing a level list by a coded index (the `lvls[idx]` of the
generation branches). -/
def levelAt (lvls : List Val) (d : ℕ) : Val := lvls.getD d vdflt

/-- The value row of the full factorial at run index `r`, given the level
lists: each factor's level selected by the corresponding mixed-radix digit
of `r`. -/
def fullfactValRow (lvlss : List (List Val)) (r : ℕ) : List Val :=
  List.zipWith levelAt lvlss (fullfactRow (lvlss.map List.length) r)

/-! ### Lemmas: first-seen-order deduplication -/

theorem uniqueLoop_mem (v : Val) :
    ∀ (l seen : List Val), v ∈ uniqueLoop l seen ↔ v ∈ l ∧ v ∉ seen := by
  intro l
  induction l with
  | nil => simp [uniqueLoop]
  | cons a rest ih =>
      intro seen
      by_cases ha : a ∈ seen
      · simp only [uniqueLoop, if_pos ha, ih, List.mem_cons]
        constructor
        · rintro ⟨hv, hns⟩; exact ⟨Or.inr hv, hns⟩
        · rintro ⟨hv | hv, hns⟩
          · exact absurd (hv ▸ ha) hns
          · exact ⟨hv, hns⟩
      · simp only [uniqueLoop, if_neg ha, List.mem_cons, ih, List.mem_cons]
        constructor
        · rintro (rfl | ⟨hv, hns⟩)
          · exact ⟨Or.inl rfl, ha⟩
          · exact ⟨Or.inr hv, fun h => hns (Or.inr h)⟩
        · rintro ⟨rfl | hv, hns⟩
          · exact Or.inl rfl
          · by_cases hva : v = a
            · exact Or.inl hva
            · exact Or.inr ⟨hv, fun h => h.elim (fun h' => hva h') hns⟩

theorem uniqueLoop_nodup : ∀ (l seen : List Val), (uniqueLoop l seen).Nodup := by
  intro l
  induction l with
  | nil => intro seen; simp [uniqueLoop]
  | cons a rest ih =>
      intro seen
      by_cases ha : a ∈ seen
      · simpa [uniqueLoop, if_pos ha] using ih seen
      · simp only [uniqueLoop, if_neg ha]
        exact List.nodup_cons.mpr
          ⟨fun hmem => ((uniqueLoop_mem a rest (a :: seen)).mp hmem).2
            (List.mem_cons_self a seen), ih (a :: seen)⟩

theorem unique_levels_nodup (col : List (Option Val)) :
    (unique_levels col).Nodup := uniqueLoop_nodup _ []

theorem unique_levels_mem (v : Val) (col : List (Option Val)) :
    v ∈ unique_levels col ↔ some v ∈ col := by
  unfold unique_levels
  rw [uniqueLoop_mem]
  simp [List.mem_filterMap]

/-! ### Lemmas: the mixed-radix structure of `fullfact` -/

theorem fullfactRow_length : ∀ (L : List ℕ) (r : ℕ),
    (fullfactRow L r).length = L.length := by
  intro L
  induction L with
  | nil => intro r; rfl
  | cons L0 rest ih => intro r; simp [fullfactRow, ih]

theorem fullfactRow_forall₂_lt : ∀ (L : List ℕ) (r : ℕ), (∀ x ∈ L, 0 < x) →
    List.Forall₂ (· < ·) (fullfactRow L r) L := by
  intro L
  induction L with
  | nil => intro r _; exact List.Forall₂.nil
  | cons L0 rest ih =>
      intro r hpos
      exact List.Forall₂.cons
        (Nat.mod_lt _ (hpos L0 (List.mem_cons_self _ _)))
        (ih _ (fun x hx => hpos x (List.mem_cons_of_mem _ hx)))

theorem fullfactRow_inj : ∀ (L : List ℕ) (r s : ℕ), (∀ x ∈ L, 0 < x) →
    r < L.prod → s < L.prod → fullfactRow L r = fullfactRow L s → r = s := by
  intro L
  induction L with
  | nil =>
      intro r s _ hr hs _
      simp only [List.prod_nil, Nat.lt_one_iff] at hr hs
      omega
  | cons L0 rest ih =>
      intro r s hpos hr hs heq
      have hL0 : 0 < L0 := hpos L0 (List.mem_cons_self _ _)
      simp only [fullfactRow, List.cons.injEq] at heq
      have hrd : r / L0 < rest.prod := by
        rw [Nat.div_lt_iff_lt_mul hL0]
        calc r < (L0 :: rest).prod := hr
          _ = rest.prod * L0 := by rw [List.prod_cons]; ring
      have hsd : s / L0 < rest.prod := by
        rw [Nat.div_lt_iff_lt_mul hL0]
        calc s < (L0 :: rest).prod := hs
          _ = rest.prod * L0 := by rw [List.prod_cons]; ring
      have hdiv : r / L0 = s / L0 :=
        ih _ _ (fun x hx => hpos x (List.mem_cons_of_mem _ hx)) hrd hsd heq.2
      have h3 : r % L0 = s % L0 := heq.1
      have h1 := Nat.div_add_mod r L0
      have h2 := Nat.div_add_mod s L0
      rw [hdiv] at h1
      omega

theorem encodeRow_lt : ∀ (L ds : List ℕ),
    List.Forall₂ (· < ·) ds L → encodeRow L ds < L.prod := by
  intro L
  induction L with
  | nil =>
      intro ds h
      rw [List.forall₂_nil_right_iff] at h
      subst h
      simp [encodeRow]
  | cons L0 rest ih =>
      intro ds h
      rcases List.forall₂_cons_right_iff.mp h with ⟨d, ds', hd, hds, rfl⟩
      have he := ih ds' hds
      calc encodeRow (L0 :: rest) (d :: ds') = d + L0 * encodeRow rest ds' := rfl
        _ < L0 * (encodeRow rest ds' + 1) := by
            rw [Nat.mul_add, Nat.mul_one]; omega
        _ ≤ L0 * rest.prod := Nat.mul_le_mul_left _ (by omega)
        _ = (L0 :: rest).prod := (List.prod_cons).symm

theorem fullfactRow_encodeRow : ∀ (L ds : List ℕ),
    List.Forall₂ (· < ·) ds L → fullfactRow L (encodeRow L ds) = ds := by
  intro L
  induction L with
  | nil =>
      intro ds h
      rw [List.forall₂_nil_right_iff] at h
      subst h
      rfl
  | cons L0 rest ih =>
      intro ds h
      rcases List.forall₂_cons_right_iff.mp h with ⟨d, ds', hd, hds, rfl⟩
      have h1 : (d + L0 * encodeRow rest ds') % L0 = d := by
        rw [Nat.add_mul_mod_self_left, Nat.mod_eq_of_lt hd]
      have h2 : (d + L0 * encodeRow rest ds') / L0 = encodeRow rest ds' := by
        rw [Nat.add_mul_div_left _ _ (by omega : 0 < L0), Nat.div_eq_of_lt hd]
        omega
      simp [fullfactRow, encodeRow, h1, h2, ih ds' hds]

theorem fullfactRow_getD : ∀ (L : List ℕ) (r j : ℕ), j < L.length →
    (fullfactRow L r).getD j 0 = (r / (L.take j).prod) % L.getD j 1 := by
  intro L
  induction L with
  | nil => intro r j h; simp at h
  | cons L0 rest ih =>
      intro r j hj
      cases j with
      | zero => simp [fullfactRow]
      | succ j =>
          have hj' : j < rest.length := by simpa using hj
          calc (fullfactRow (L0 :: rest) r).getD (j + 1) 0
              = (fullfactRow rest (r / L0)).getD j 0 := by simp [fullfactRow]
            _ = (r / L0 / (rest.take j).prod) % rest.getD j 1 := ih _ _ hj'
            _ = (r / ((L0 :: rest).take (j + 1)).prod) % (L0 :: rest).getD (j + 1) 1 := by
                rw [Nat.div_div_eq_div_mul]
                simp [List.prod_cons]

/-! ### Lemmas: generic list plumbing -/

theorem map_mapIdx {α β γ : Type} :
    ∀ (l : List α) (f : ℕ → α → β) (g : β → γ),
      (l.mapIdx f).map g = l.mapIdx (fun i a => g (f i a)) := by
  intro l
  induction l with
  | nil => intro f g; rfl
  | cons a l ih => intro f g; simp only [List.mapIdx_cons, List.map_cons, ih]

theorem mapIdx_of_const {α β : Type} :
    ∀ (l : List α) (h : α → β), l.mapIdx (fun _ a => h a) = l.map h := by
  intro l
  induction l with
  | nil => intro h; rfl
  | cons a l ih => intro h; simp only [List.mapIdx_cons, List.map_cons, ih]

theorem mapIdx_getD_eq_zipWith {α β : Type} :
    ∀ (l : List α) (ds : List ℕ) (f : α → ℕ → β), l.length ≤ ds.length →
      l.mapIdx (fun i a => f a (ds.getD i 0)) = List.zipWith f l ds := by
  intro l
  induction l with
  | nil => intro ds f _; simp
  | cons a l ih =>
      intro ds f hlen
      cases ds with
      | nil => simp at hlen
      | cons d ds' =>
          simp only [List.mapIdx_cons, List.getD_cons_zero, List.getD_cons_succ,
            List.zipWith_cons_cons]
          exact congrArg _ (ih ds' (fun a i => f a i) (by simpa using hlen))

/-! ### Lemmas: the FULLFAC data construction -/

theorem fullfactCols_ok :
    ∀ (lm : List (String × List Val)) (raw : List (List ℕ)) (j : ℕ),
      (∀ p ∈ lm, p.2 ≠ []) →
      fullfactCols lm raw j =
        .ok (lm.mapIdx (fun i p =>
          (p.1, raw.map (fun row => levelAt p.2 (row.getD (j + i) 0))))) := by
  intro lm
  induction lm with
  | nil => intro raw j _; rfl
  | cons p rest ih =>
      intro raw j hlv
      obtain ⟨c, lvls⟩ := p
      have hnn : lvls ≠ [] := hlv (c, lvls) (List.mem_cons_self _ _)
      have hne : lvls.isEmpty = false := by
        cases lvls with
        | nil => exact absurd rfl hnn
        | cons x xs => rfl
      simp only [fullfactCols, hne, Bool.false_eq_true, if_false,
        ih raw (j + 1) (fun q hq => hlv q (List.mem_cons_of_mem _ hq)),
        List.mapIdx_cons]
      refine congrArg Except.ok (congrArg₂ _ (by simp [levelAt]) ?_)
      refine congrArg₂ _ (funext fun i => funext fun q => ?_) rfl
      have : j + 1 + i = j + (i + 1) := by omega
      rw [this]

theorem fullfact_length (L : List ℕ) : (fullfact L).length = L.prod := by
  simp [fullfact]

theorem fullfact_getElem (L : List ℕ) (r : ℕ) (h : r < (fullfact L).length) :
    (fullfact L)[r] = fullfactRow L r := by
  simp [fullfact]

/-! ### Lemmas: cartesian product membership and value-row structure -/

theorem mem_cartProd : ∀ (lvlss : List (List Val)) (x : List Val),
    x ∈ cartProd lvlss ↔ List.Forall₂ (fun v l => v ∈ l) x lvlss := by
  intro lvlss
  induction lvlss with
  | nil =>
      intro x
      simp [cartProd, List.forall₂_nil_right_iff]
  | cons l ls ih =>
      intro x
      simp only [cartProd, List.mem_flatten, List.mem_map,
        List.forall₂_cons_right_iff]
      constructor
      · rintro ⟨_, ⟨v, hv, rfl⟩, hx⟩
        rcases List.mem_map.mp hx with ⟨t, ht, rfl⟩
        exact ⟨v, t, hv, (ih t).mp ht, rfl⟩
      · rintro ⟨v, t, hv, ht, rfl⟩
        exact ⟨(cartProd ls).map (v :: ·), ⟨v, hv, rfl⟩,
          List.mem_map.mpr ⟨t, (ih t).mpr ht, rfl⟩⟩

theorem zipWith_levelAt_mem :
    ∀ (lvlss : List (List Val)) (ds : List ℕ),
      List.Forall₂ (fun dgt lvls => dgt < lvls.length) ds lvlss →
      List.Forall₂ (fun v l => v ∈ l) (List.zipWith levelAt lvlss ds) lvlss := by
  intro lvlss ds h
  induction h with
  | nil => exact .nil
  | @cons d l ds' ls' hd _ ih =>
      refine List.Forall₂.cons ?_ ih
      rw [levelAt, List.getD_eq_getElem _ _ hd]
      exact List.getElem_mem hd

theorem mem_exists_levelAt (v : Val) (l : List Val) (h : v ∈ l) :
    ∃ i, i < l.length ∧ levelAt l i = v := by
  rcases List.mem_iff_getElem.mp h with ⟨i, hi, hv⟩
  exact ⟨i, hi, by rw [levelAt, List.getD_eq_getElem _ _ hi]; exact hv⟩

theorem forall₂_mem_exists_digits :
    ∀ (row : List Val) (lvlss : List (List Val)),
      List.Forall₂ (fun v l => v ∈ l) row lvlss →
      ∃ ds, List.Forall₂ (fun dgt lvls => dgt < lvls.length) ds lvlss ∧
        List.zipWith levelAt lvlss ds = row := by
  intro row lvlss h
  induction h with
  | nil => exact ⟨[], .nil, rfl⟩
  | @cons v l row' ls' hv _ ih =>
      rcases ih with ⟨ds, hds, hzip⟩
      rcases mem_exists_levelAt v l hv with ⟨i, hi, hlv⟩
      exact ⟨i :: ds, .cons hi hds, by simp [hlv, hzip]⟩

theorem zipWith_levelAt_inj :
    ∀ (lvlss : List (List Val)) (ds1 ds2 : List ℕ),
      (∀ l ∈ lvlss, l.Nodup) →
      List.Forall₂ (fun dgt lvls => dgt < lvls.length) ds1 lvlss →
      List.Forall₂ (fun dgt lvls => dgt < lvls.length) ds2 lvlss →
      List.zipWith levelAt lvlss ds1 = List.zipWith levelAt lvlss ds2 →
      ds1 = ds2 := by
  intro lvlss
  induction lvlss with
  | nil =>
      intro ds1 ds2 _ h1 h2 _
      rw [List.forall₂_nil_right_iff] at h1 h2
      rw [h1, h2]
  | cons l ls ih =>
      intro ds1 ds2 hnd h1 h2 heq
      rcases List.forall₂_cons_right_iff.mp h1 with ⟨d1, t1, hd1, ht1, rfl⟩
      rcases List.forall₂_cons_right_iff.mp h2 with ⟨d2, t2, hd2, ht2, rfl⟩
      simp only [List.zipWith_cons_cons, List.cons.injEq] at heq
      have hhead : d1 = d2 := by
        have := heq.1
        rw [levelAt, levelAt, List.getD_eq_getElem _ _ hd1,
          List.getD_eq_getElem _ _ hd2] at this
        exact ((hnd l (List.mem_cons_self _ _)).getElem_inj_iff).mp this
      have htail : t1 = t2 :=
        ih t1 t2 (fun x hx => hnd x (List.mem_cons_of_mem _ hx)) ht1 ht2 heq.2
      rw [hhead, htail]

theorem fullfactValRow_digits (lvlss : List (List Val)) (r : ℕ)
    (hlv : ∀ l ∈ lvlss, l ≠ []) :
    List.Forall₂ (fun dgt lvls => dgt < lvls.length)
      (fullfactRow (lvlss.map List.length) r) lvlss := by
  rw [← List.forall₂_map_right_iff]
  exact fullfactRow_forall₂_lt _ r (by
    intro x hx
    rcases List.mem_map.mp hx with ⟨l, hl, rfl⟩
    have := hlv l hl
    cases l with
    | nil => exact absurd rfl this
    | cons a t => simp)

theorem fullfactValRow_mem (lvlss : List (List Val)) (r : ℕ)
    (hlv : ∀ l ∈ lvlss, l ≠ []) :
    List.Forall₂ (fun v l => v ∈ l) (fullfactValRow lvlss r) lvlss :=
  zipWith_levelAt_mem _ _ (fullfactValRow_digits lvlss r hlv)

theorem fullfactValRow_inj (lvlss : List (List Val)) (r s : ℕ)
    (hlv : ∀ l ∈ lvlss, l ≠ []) (hnd : ∀ l ∈ lvlss, l.Nodup)
    (hr : r < (lvlss.map List.length).prod) (hs : s < (lvlss.map List.length).prod)
    (heq : fullfactValRow lvlss r = fullfactValRow lvlss s) : r = s := by
  have hpos : ∀ x ∈ lvlss.map List.length, 0 < x := by
    intro x hx
    rcases List.mem_map.mp hx with ⟨l, hl, rfl⟩
    have := hlv l hl
    cases l with
    | nil => exact absurd rfl this
    | cons a t => simp
  have hds := zipWith_levelAt_inj lvlss _ _ hnd
    (fullfactValRow_digits lvlss r hlv) (fullfactValRow_digits lvlss s hlv) heq
  exact fullfactRow_inj _ r s hpos hr hs hds

theorem fullfactValRow_surj (lvlss : List (List Val)) (row : List Val)
    (hmem : List.Forall₂ (fun v l => v ∈ l) row lvlss) :
    ∃ r, r < (lvlss.map List.length).prod ∧ fullfactValRow lvlss r = row := by
  rcases forall₂_mem_exists_digits row lvlss hmem with ⟨ds, hds, hzip⟩
  have hds' : List.Forall₂ (· < ·) ds (lvlss.map List.length) := by
    rw [List.forall₂_map_right_iff]
    exact hds
  refine ⟨encodeRow (lvlss.map List.length) ds, encodeRow_lt _ _ hds', ?_⟩
  rw [fullfactValRow, fullfactRow_encodeRow _ _ hds', hzip]

theorem fullfactData_facts (lm : List (String × List Val)) (counts : List ℕ)
    (hlv : ∀ p ∈ lm, p.2 ≠ [])
    (hcounts : counts = lm.map (fun p => p.2.length)) :
    ∃ data, fullfactCols lm (fullfact counts) 0 = .ok data ∧
      data.map Prod.fst = lm.map Prod.fst ∧
      (lm ≠ [] → dfLen data = counts.prod) ∧
      (lm ≠ [] → dfRows data =
        (List.range counts.prod).map (fullfactValRow (lm.map Prod.snd))) := by
  refine ⟨lm.mapIdx (fun i p =>
      (p.1, (fullfact counts).map (fun row => levelAt p.2 (row.getD (0 + i) 0)))),
    fullfactCols_ok lm (fullfact counts) 0 hlv, ?_, ?_, ?_⟩
  · rw [map_mapIdx]
    exact mapIdx_of_const lm Prod.fst
  · intro hne
    cases lm with
    | nil => exact absurd rfl hne
    | cons p rest =>
        simp only [List.mapIdx_cons, dfLen, List.length_map, fullfact_length]
  · intro hne
    have hlen : dfLen (lm.mapIdx (fun i p =>
        (p.1, (fullfact counts).map (fun row => levelAt p.2 (row.getD (0 + i) 0))))) =
          counts.prod := by
      cases lm with
      | nil => exact absurd rfl hne
      | cons p rest =>
          simp only [List.mapIdx_cons, dfLen, List.length_map, fullfact_length]
    rw [dfRows, hlen]
    refine List.map_congr_left ?_
    intro r hr
    have hrlt : r < counts.prod := List.mem_range.mp hr
    have hget : ∀ (g : List ℕ → Val),
        ((fullfact counts).map g).getD r vdflt = g (fullfactRow counts r) := by
      intro g
      have hr' : r < ((fullfact counts).map g).length := by
        rw [List.length_map, fullfact_length]; exact hrlt
      rw [List.getD_eq_getElem _ _ hr', List.getElem_map, fullfact_getElem]
    rw [dfRow, map_mapIdx]
    have hstep : lm.mapIdx (fun i p =>
        ((fullfact counts).map (fun row => levelAt p.2 (row.getD (0 + i) 0))).getD r vdflt) =
        lm.mapIdx (fun i p => levelAt p.2 ((fullfactRow counts r).getD i 0)) := by
      refine congrArg (fun f => List.mapIdx f lm)
        (funext fun i => funext fun p => ?_)
      rw [hget]
      simp
    rw [hstep, mapIdx_getD_eq_zipWith lm (fullfactRow counts r)
        (fun p dgt => levelAt p.2 dgt)
        (by rw [fullfactRow_length, hcounts, List.length_map]),
      fullfactValRow]
    have hc : (lm.map Prod.snd).map List.length = counts := by
      rw [List.map_map, hcounts]
      rfl
    rw [hc, ← List.zipWith_map_left lm (fullfactRow counts r) Prod.snd levelAt]

theorem fullfactValRow_getD (lvlss : List (List Val)) (r j : ℕ)
    (hj : j < lvlss.length) :
    (fullfactValRow lvlss r).getD j vdflt =
      levelAt (lvlss.getD j [])
        ((r / ((lvlss.map List.length).take j).prod) %
          ((lvlss.map List.length).getD j 1)) := by
  have hlen : (fullfactRow (lvlss.map List.length) r).length = lvlss.length := by
    rw [fullfactRow_length, List.length_map]
  have hjz : j < (List.zipWith levelAt lvlss
      (fullfactRow (lvlss.map List.length) r)).length := by
    rw [List.length_zipWith, hlen]
    exact lt_min hj hj
  rw [fullfactValRow, List.getD_eq_getElem _ _ hjz, List.getElem_zipWith]
  rw [← fullfactRow_getD (lvlss.map List.length) r j (by rwa [List.length_map])]
  rw [List.getD_eq_getElem _ _ (by rwa [hlen] : j < (fullfactRow (lvlss.map List.length) r).length)]
  rw [List.getD_eq_getElem lvlss [] hj]

/-! ### Claim theorems -/

/-- C1: for every nonempty factor map whose factors all have at least one
level and whose product of level counts is at most 1,000,000, full-factorial
generation succeeds; the wide design has exactly the product of the level
counts as its row count and `k + 2` columns (`EXPERIMENT` and
`CONFIGURATION` followed by the `k` factor columns); the generated rows are
pairwise distinct; and a row occurs among the generated rows exactly when it
lies in the cartesian product of the per-factor level lists. -/
theorem C1_fullfact_wide_design (d : RawDict) (hne : d ≠ [])
    (hlv : ∀ p ∈ d, unique_levels p.2 ≠ [])
    (hbound : ((levelsMap d).map (fun p => p.2.length)).prod ≤ 1000000) :
    ∃ data, fullfactExecute d = .ok data ∧
      (dfRows data).length = ((levelsMap d).map (fun p => p.2.length)).prod ∧
      (∀ e, (insertMeta e data).map Prod.fst =
        "EXPERIMENT" :: "CONFIGURATION" :: d.map Prod.fst) ∧
      (∀ e, (insertMeta e data).length = d.length + 2) ∧
      (dfRows data).Nodup ∧
      (∀ row, row ∈ dfRows data ↔ row ∈ cartProd ((levelsMap d).map Prod.snd)) := by
  have hlv' : ∀ p ∈ levelsMap d, p.2 ≠ [] := by
    intro p hp
    rcases List.mem_map.mp hp with ⟨q, hq, rfl⟩
    exact hlv q hq
  have hcounts : levelCounts d = (levelsMap d).map (fun p => p.2.length) := by
    unfold levelCounts
    refine List.map_congr_left ?_
    intro p hp
    exact Nat.max_eq_right (List.length_pos.mpr (hlv' p hp))
  have hempty : d.isEmpty = false := by
    cases d with
    | nil => exact absurd rfl hne
    | cons a t => rfl
  have hlmne : levelsMap d ≠ [] := by
    cases d with
    | nil => exact absurd rfl hne
    | cons a t => simp [levelsMap]
  have hif : ¬ ((levelCounts d).prod > 1000000) := by
    rw [hcounts]; omega
  obtain ⟨data, hdata, hnames, hdfl, hdfr⟩ :=
    fullfactData_facts (levelsMap d) (levelCounts d) hlv' hcounts
  have hc2 : ((levelsMap d).map Prod.snd).map List.length = levelCounts d := by
    rw [List.map_map, hcounts]; rfl
  have hlvS : ∀ l ∈ (levelsMap d).map Prod.snd, l ≠ [] := by
    intro l hl
    rcases List.mem_map.mp hl with ⟨p, hp, rfl⟩
    exact hlv' p hp
  have hndS : ∀ l ∈ (levelsMap d).map Prod.snd, l.Nodup := by
    intro l hl
    rcases List.mem_map.mp hl with ⟨p, hp, rfl⟩
    rcases List.mem_map.mp hp with ⟨q, _, rfl⟩
    exact unique_levels_nodup q.2
  refine ⟨data, ?_, ?_, ?_, ?_, ?_, ?_⟩
  · show fullfactExecute d = .ok data
    unfold fullfactExecute
    rw [hempty]
    simp only [Bool.false_eq_true, if_false, if_neg hif]
    exact hdata
  · rw [hdfr hlmne, List.length_map, List.length_range, hcounts]
  · intro e
    have : data.map Prod.fst = d.map Prod.fst := by
      rw [hnames, levelsMap, List.map_map]; rfl
    simp [insertMeta, this]
  · intro e
    have hdl : data.length = d.length := by
      have := congrArg List.length hnames
      simpa [levelsMap] using this
    simp [insertMeta, hdl]
  · rw [hdfr hlmne]
    refine List.Nodup.map_on ?_ (List.nodup_range _)
    intro r hr s hs heq
    exact fullfactValRow_inj _ r s hlvS hndS
      (by rw [hc2]; exact List.mem_range.mp hr)
      (by rw [hc2]; exact List.mem_range.mp hs) heq
  · intro row
    rw [hdfr hlmne]
    constructor
    · intro hrow
      rcases List.mem_map.mp hrow with ⟨r, _, rfl⟩
      exact (mem_cartProd _ _).mpr (fullfactValRow_mem _ r hlvS)
    · intro hrow
      rcases fullfactValRow_surj _ row ((mem_cartProd _ _).mp hrow) with ⟨r, hrlt, hrw⟩
      exact List.mem_map.mpr ⟨r, List.mem_range.mpr (by rw [← hc2]; exact hrlt), hrw⟩

/-- Witness for C1 at the two-factor example
`{"speed": [1, 2], "color": ["red", "blue"]}`. -/
theorem C1_fullfact_wide_design_witness :
    ∃ data,
      fullfactExecute [("speed", [some (Val.num 1), some (Val.num 2)]),
        ("color", [some (Val.str "red"), some (Val.str "blue")])] = .ok data ∧
      (dfRows data).length =
        ((levelsMap [("speed", [some (Val.num 1), some (Val.num 2)]),
          ("color", [some (Val.str "red"), some (Val.str "blue")])]).map
            (fun p => p.2.length)).prod ∧
      (∀ e, (insertMeta e data).map Prod.fst =
        "EXPERIMENT" :: "CONFIGURATION" ::
          [("speed", [some (Val.num 1), some (Val.num 2)]),
            ("color", [some (Val.str "red"), some (Val.str "blue")])].map Prod.fst) ∧
      (∀ e, (insertMeta e data).length =
        [("speed", [some (Val.num 1), some (Val.num 2)]),
          ("color", [some (Val.str "red"), some (Val.str "blue")])].length + 2) ∧
      (dfRows data).Nodup ∧
      (∀ row, row ∈ dfRows data ↔ row ∈ cartProd
        ((levelsMap [("speed", [some (Val.num 1), some (Val.num 2)]),
          ("color", [some (Val.str "red"), some (Val.str "blue")])]).map Prod.snd)) :=
  C1_fullfact_wide_design _ (by decide) (by decide) (by decide)

/-- C2 counterexample: for the factor map
`{"speed": [1, 2], "color": ["red", "blue"]}` the full factorial's rows come
out as `(1,red),(2,red),(1,blue),(2,blue)` — the FIRST factor (`speed`)
varies fastest — and not in the order
`(1,red),(1,blue),(2,red),(2,blue)` that the claim states. -/
theorem C2_counterexample :
    fullfactExecute [("speed", [some (Val.num 1), some (Val.num 2)]),
        ("color", [some (Val.str "red"), some (Val.str "blue")])] =
      .ok [("speed", [Val.num 1, Val.num 2, Val.num 1, Val.num 2]),
        ("color", [Val.str "red", Val.str "red", Val.str "blue", Val.str "blue"])] ∧
    dfRows [("speed", [Val.num 1, Val.num 2, Val.num 1, Val.num 2]),
        ("color", [Val.str "red", Val.str "red", Val.str "blue", Val.str "blue"])] =
      [[Val.num 1, Val.str "red"], [Val.num 2, Val.str "red"],
        [Val.num 1, Val.str "blue"], [Val.num 2, Val.str "blue"]] ∧
    ([[Val.num 1, Val.str "red"], [Val.num 2, Val.str "red"],
        [Val.num 1, Val.str "blue"], [Val.num 2, Val.str "blue"]] :
          List (List Val)) ≠
      [[Val.num 1, Val.str "red"], [Val.num 1, Val.str "blue"],
        [Val.num 2, Val.str "red"], [Val.num 2, Val.str "blue"]] := by
  refine ⟨by decide, by decide, by decide⟩

/-- C2 amended: the rows of the full-factorial wide design appear in
mixed-radix order with the FIRST factor varying fastest: row `r` assigns
factor `j` the level with index
`(r / (n_0 * ... * n_(j-1))) mod n_j`; in particular, for
`{"speed": [1,2], "color": ["red","blue"]}` the rows appear as
`(1,red),(2,red),(1,blue),(2,blue)` with `speed` varying fastest. -/
theorem C2_row_order_first_factor_fastest (d : RawDict) (hne : d ≠ [])
    (hlv : ∀ p ∈ d, unique_levels p.2 ≠ [])
    (hbound : ((levelsMap d).map (fun p => p.2.length)).prod ≤ 1000000) :
    ∃ data, fullfactExecute d = .ok data ∧
      dfRows data = (List.range ((levelsMap d).map (fun p => p.2.length)).prod).map
        (fullfactValRow ((levelsMap d).map Prod.snd)) ∧
      (∀ r, r < (dfRows data).length → ∀ j, j < d.length →
        ((dfRows data).getD r []).getD j vdflt =
          levelAt (((levelsMap d).map Prod.snd).getD j [])
            ((r / ((levelCounts d).take j).prod) % (levelCounts d).getD j 1)) := by
  have hlv' : ∀ p ∈ levelsMap d, p.2 ≠ [] := by
    intro p hp
    rcases List.mem_map.mp hp with ⟨q, hq, rfl⟩
    exact hlv q hq
  have hcounts : levelCounts d = (levelsMap d).map (fun p => p.2.length) := by
    unfold levelCounts
    refine List.map_congr_left ?_
    intro p hp
    exact Nat.max_eq_right (List.length_pos.mpr (hlv' p hp))
  have hempty : d.isEmpty = false := by
    cases d with
    | nil => exact absurd rfl hne
    | cons a t => rfl
  have hlmne : levelsMap d ≠ [] := by
    cases d with
    | nil => exact absurd rfl hne
    | cons a t => simp [levelsMap]
  have hif : ¬ ((levelCounts d).prod > 1000000) := by
    rw [hcounts]; omega
  obtain ⟨data, hdata, _, _, hdfr⟩ :=
    fullfactData_facts (levelsMap d) (levelCounts d) hlv' hcounts
  have hc2 : ((levelsMap d).map Prod.snd).map List.length = levelCounts d := by
    rw [List.map_map, hcounts]; rfl
  refine ⟨data, ?_, ?_, ?_⟩
  · show fullfactExecute d = .ok data
    unfold fullfactExecute
    rw [hempty]
    simp only [Bool.false_eq_true, if_false, if_neg hif]
    exact hdata
  · rw [hdfr hlmne, hcounts]
  · intro r hr j hj
    rw [hdfr hlmne] at hr ⊢
    rw [List.length_map, List.length_range] at hr
    have hrow : ((List.range (levelCounts d).prod).map
        (fullfactValRow ((levelsMap d).map Prod.snd))).getD r [] =
          fullfactValRow ((levelsMap d).map Prod.snd) r := by
      rw [List.getD_eq_getElem _ _ (by simpa using hr), List.getElem_map,
        List.getElem_range]
    rw [hrow, fullfactValRow_getD _ _ _ (by simpa [levelsMap] using hj), hc2]

/-- Witness for the amended C2 at the two-factor example
`{"speed": [1, 2], "color": ["red", "blue"]}`. -/
theorem C2_row_order_first_factor_fastest_witness :
    ∃ data,
      fullfactExecute [("speed", [some (Val.num 1), some (Val.num 2)]),
        ("color", [some (Val.str "red"), some (Val.str "blue")])] = .ok data ∧
      dfRows data = (List.range ((levelsMap [("speed", [some (Val.num 1), some (Val.num 2)]),
        ("color", [some (Val.str "red"), some (Val.str "blue")])]).map
          (fun p => p.2.length)).prod).map
        (fullfactValRow ((levelsMap [("speed", [some (Val.num 1), some (Val.num 2)]),
          ("color", [some (Val.str "red"), some (Val.str "blue")])]).map Prod.snd)) ∧
      (∀ r, r < (dfRows data).length →
        ∀ j, j < [("speed", [some (Val.num 1), some (Val.num 2)]),
          ("color", [some (Val.str "red"), some (Val.str "blue")])].length →
        ((dfRows data).getD r []).getD j vdflt =
          levelAt (((levelsMap [("speed", [some (Val.num 1), some (Val.num 2)]),
            ("color", [some (Val.str "red"), some (Val.str "blue")])]).map
              Prod.snd).getD j [])
            ((r / ((levelCounts [("speed", [some (Val.num 1), some (Val.num 2)]),
              ("color", [some (Val.str "red"), some (Val.str "blue")])]).take j).prod) %
              (levelCounts [("speed", [some (Val.num 1), some (Val.num 2)]),
                ("color", [some (Val.str "red"), some (Val.str "blue")])]).getD j 1)) :=
  C2_row_order_first_factor_fastest _ (by decide) (by decide) (by decide)

/-- C3: whenever the product of the level counts exceeds 1,000,000,
full-factorial generation fails with the combinatorial-explosion error —
whose message spells out both the computed row count and the 1,000,000
ceiling — and returns no design data (the check precedes generation, so the
result is the bare error). -/
theorem C3_combinatorial_explosion (d : RawDict) (hne : d ≠ [])
    (hbig : (levelCounts d).prod > 1000000) :
    fullfactExecute d = .error (explosionMsg (levelCounts d).prod) ∧
      explosionMsg (levelCounts d).prod =
        "Full factorial would generate " ++ commaFmt (levelCounts d).prod ++
          " rows (> 1,000,000). Please reduce factor levels." := by
  have hempty : d.isEmpty = false := by
    cases d with
    | nil => exact absurd rfl hne
    | cons a t => rfl
  refine ⟨?_, rfl⟩
  unfold fullfactExecute
  rw [hempty]
  simp only [Bool.false_eq_true, if_false, if_pos hbig]

/-- Witness for C3: twenty two-level factors, 2^20 = 1,048,576 candidate
rows, exceeding the ceiling. -/
theorem C3_combinatorial_explosion_witness :
    fullfactExecute ((List.range 20).map
        (fun i => (toString i, [some (Val.num 0), some (Val.num 1)]))) =
      .error (explosionMsg (levelCounts ((List.range 20).map
        (fun i => (toString i, [some (Val.num 0), some (Val.num 1)])))).prod) ∧
      explosionMsg (levelCounts ((List.range 20).map
        (fun i => (toString i, [some (Val.num 0), some (Val.num 1)])))).prod =
        "Full factorial would generate " ++
          commaFmt (levelCounts ((List.range 20).map
            (fun i => (toString i, [some (Val.num 0), some (Val.num 1)])))).prod ++
          " rows (> 1,000,000). Please reduce factor levels." :=
  C3_combinatorial_explosion _ (by decide) (by decide)

theorem clipIdx_lt (u : ℚ) (L : ℕ) (hL : 0 < L) : clipIdx u L < L := by
  unfold clipIdx
  have h1 : min (max (⌊u * (L : ℚ)⌋) 0) ((L : ℤ) - 1) ≤ (L : ℤ) - 1 :=
    min_le_right _ _
  omega

theorem lhsCols_ok :
    ∀ (lm : List (String × List Val)) (u : List (List ℚ)) (j : ℕ),
      (∀ p ∈ lm, p.2 ≠ []) →
      lhsCols lm u j =
        .ok (lm.mapIdx (fun i p =>
          (p.1, u.map (fun urow =>
            levelAt p.2 (clipIdx (urow.getD (j + i) 0) p.2.length))))) := by
  intro lm
  induction lm with
  | nil => intro u j _; rfl
  | cons p rest ih =>
      intro u j hlv
      obtain ⟨c, lvls⟩ := p
      have hnn : lvls ≠ [] := hlv (c, lvls) (List.mem_cons_self _ _)
      have hne : lvls.isEmpty = false := by
        cases lvls with
        | nil => exact absurd rfl hnn
        | cons x xs => rfl
      simp only [lhsCols, hne, Bool.false_eq_true, if_false,
        ih u (j + 1) (fun q hq => hlv q (List.mem_cons_of_mem _ hq)),
        List.mapIdx_cons]
      refine congrArg Except.ok (congrArg₂ _ (by simp [levelAt]) ?_)
      refine congrArg (fun f => List.mapIdx f rest)
        (funext fun i => funext fun q => ?_)
      have : j + 1 + i = j + (i + 1) := by omega
      rw [this]

/-- C8: for every nonempty factor map whose factors all have at least one
level, Latin hypercube sampling with `samples = N ≥ 1` and a sample matrix of
`N` points succeeds and produces a wide design with exactly `N` rows; each
factor column holds, per sampled point, the level selected by the clipped
floor discretization `clip(floor(u * L), 0, L-1)`, so every value in every
row belongs to that factor's declared level set. -/
theorem C8_lhs_rows_and_membership (d : RawDict) (hne : d ≠ [])
    (hlv : ∀ p ∈ d, unique_levels p.2 ≠ [])
    (samples : ℕ) (hs : 1 ≤ samples)
    (u : List (List ℚ)) (hu : u.length = samples) :
    ∃ data, lhsExecute d samples u = .ok data ∧
      data.map Prod.fst = d.map Prod.fst ∧
      dfLen data = samples ∧
      (dfRows data).length = samples ∧
      (∀ i, i < d.length →
        (data.getD i ("", [])).2 = u.map (fun urow =>
          levelAt (unique_levels (d.getD i ("", [])).2)
            (clipIdx (urow.getD i 0)
              (unique_levels (d.getD i ("", [])).2).length)) ∧
        ∀ v ∈ (data.getD i ("", [])).2, v ∈ unique_levels (d.getD i ("", [])).2) := by
  have hlv' : ∀ p ∈ levelsMap d, p.2 ≠ [] := by
    intro p hp
    rcases List.mem_map.mp hp with ⟨q, hq, rfl⟩
    exact hlv q hq
  have hempty : d.isEmpty = false := by
    cases d with
    | nil => exact absurd rfl hne
    | cons a t => rfl
  have hsm : ¬ (samples < 1) := by omega
  refine ⟨(levelsMap d).mapIdx (fun i p =>
      (p.1, u.map (fun urow =>
        levelAt p.2 (clipIdx (urow.getD (0 + i) 0) p.2.length)))), ?_, ?_, ?_, ?_, ?_⟩
  · show lhsExecute d samples u = _
    unfold lhsExecute
    rw [hempty]
    simp only [Bool.false_eq_true, if_false, if_neg hsm]
    exact lhsCols_ok (levelsMap d) u 0 hlv'
  · rw [map_mapIdx]
    have : (levelsMap d).mapIdx (fun _ p => p.1) = (levelsMap d).map Prod.fst :=
      mapIdx_of_const _ _
    rw [this, levelsMap, List.map_map]
    rfl
  · cases hd : d with
    | nil => exact absurd hd hne
    | cons a t =>
        subst hd
        simp only [levelsMap, List.map_cons, List.mapIdx_cons, dfLen,
          List.length_map]
        exact hu
  · rw [dfRows, List.length_map, List.length_range]
    cases hd : d with
    | nil => exact absurd hd hne
    | cons a t =>
        subst hd
        simp only [levelsMap, List.map_cons, List.mapIdx_cons, dfLen,
          List.length_map]
        exact hu
  · intro i hi
    have hilm : i < (levelsMap d).length := by simpa [levelsMap] using hi
    have hgd : ((levelsMap d).mapIdx (fun i p =>
        (p.1, u.map (fun urow =>
          levelAt p.2 (clipIdx (urow.getD (0 + i) 0) p.2.length))))).getD i ("", []) =
        (((levelsMap d).getD i ("", [])).1, u.map (fun urow =>
          levelAt ((levelsMap d).getD i ("", [])).2
            (clipIdx (urow.getD (0 + i) 0) ((levelsMap d).getD i ("", [])).2.length))) := by
      rw [List.getD_eq_getElem _ _ (by simpa [List.length_mapIdx] using hilm),
        List.getElem_mapIdx, List.getD_eq_getElem _ _ hilm]
    have hdl : (levelsMap d).getD i ("", []) =
        ((d.getD i ("", [])).1, unique_levels (d.getD i ("", [])).2) := by
      simp only [levelsMap] at hilm ⊢
      rw [List.getD_eq_getElem _ _ hilm, List.getElem_map,
        List.getD_eq_getElem d ("", []) hi]
    constructor
    · rw [hgd, hdl]
      simp
    · intro v hv
      rw [hgd, hdl] at hv
      simp only [List.mem_map] at hv
      rcases hv with ⟨urow, _, rfl⟩
      have hnn : unique_levels (d.getD i ("", [])).2 ≠ [] := by
        have : d.getD i ("", []) ∈ d := by
          rw [(List.getD_eq_getElem d ("", []) hi)]
          exact List.getElem_mem hi
        exact hlv _ this
      have hpos : 0 < (unique_levels (d.getD i ("", [])).2).length :=
        List.length_pos.mpr hnn
      have hclip := clipIdx_lt (urow.getD (0 + i) 0)
        (unique_levels (d.getD i ("", [])).2).length hpos
      rw [levelAt, List.getD_eq_getElem _ _ hclip]
      exact List.getElem_mem hclip

/-- Witness for C8: one two-level factor, two sampled points `0` and `1`. -/
theorem C8_lhs_rows_and_membership_witness :
    ∃ data,
      lhsExecute [("a", [some (Val.num 1), some (Val.num 2)])] 2 [[0], [1]] =
        .ok data ∧
      data.map Prod.fst =
        [("a", [some (Val.num 1), some (Val.num 2)])].map Prod.fst ∧
      dfLen data = 2 ∧
      (dfRows data).length = 2 ∧
      (∀ i, i < [("a", [some (Val.num 1), some (Val.num 2)])].length →
        (data.getD i ("", [])).2 = [[(0 : ℚ)], [1]].map (fun urow =>
          levelAt (unique_levels
            ([("a", [some (Val.num 1), some (Val.num 2)])].getD i ("", [])).2)
            (clipIdx (urow.getD i 0)
              (unique_levels
                ([("a", [some (Val.num 1), some (Val.num 2)])].getD i ("", [])).2).length)) ∧
        ∀ v ∈ (data.getD i ("", [])).2,
          v ∈ unique_levels
            ([("a", [some (Val.num 1), some (Val.num 2)])].getD i ("", [])).2) :=
  C8_lhs_rows_and_membership _ (by decide) (by decide) 2 (by decide) _ (by decide)

theorem uniqueLoop_length_of_nodup :
    ∀ (l seen : List Val), l.Nodup → (∀ v ∈ l, v ∉ seen) →
      (uniqueLoop l seen).length = l.length := by
  intro l
  induction l with
  | nil => intro seen _ _; rfl
  | cons v rest ih =>
      intro seen hnd hout
      have hv : v ∉ seen := hout v (List.mem_cons_self _ _)
      rw [uniqueLoop, if_neg hv]
      simp only [List.length_cons]
      rw [ih (v :: seen) (List.nodup_cons.mp hnd).2]
      intro w hw
      rcases List.nodup_cons.mp hnd with ⟨hvr, _⟩
      intro hmem
      rcases List.mem_cons.mp hmem with rfl | hws
      · exact hvr hw
      · exact hout w (List.mem_cons_of_mem _ hw) hws

theorem setSize_of_nodup (l : List Val) (h : l.Nodup) : setSize l = l.length :=
  uniqueLoop_length_of_nodup l [] h (by simp)

theorem pbFirstBad_none_of_forall (lm : List (String × List Val))
    (hnd : ∀ p ∈ lm, p.2.Nodup) (hall : ∀ p ∈ lm, p.2.length = 2) :
    pbFirstBad lm = none := by
  rw [pbFirstBad, List.findSome?_eq_none_iff]
  intro p hp
  have hss : setSize p.2 = p.2.length := setSize_of_nodup _ (hnd p hp)
  rw [if_neg]
  push_neg
  exact ⟨hall p hp, by rw [hss]; exact hall p hp⟩

theorem pbFirstBad_some_of_exists :
    ∀ (lm : List (String × List Val)), (∀ p ∈ lm, p.2.Nodup) →
      (∃ p ∈ lm, p.2.length ≠ 2) →
      ∃ p ∈ lm, p.2.length ≠ 2 ∧ pbFirstBad lm = some (p.1, p.2.length) := by
  intro lm
  induction lm with
  | nil => rintro _ ⟨p, hp, _⟩; simp at hp
  | cons q rest ih =>
      rintro hnd ⟨p, hp, hbad⟩
      have hq : setSize q.2 = q.2.length :=
        setSize_of_nodup _ (hnd q (List.mem_cons_self _ _))
      by_cases hql : q.2.length = 2
      · have hqg : ¬ (q.2.length ≠ 2 ∨ setSize q.2 ≠ 2) := by
          push_neg
          exact ⟨hql, by rw [hq]; exact hql⟩
        have hprest : p ∈ rest := by
          rcases List.mem_cons.mp hp with rfl | h
          · exact absurd hql hbad
          · exact h
        rcases ih (fun r hr => hnd r (List.mem_cons_of_mem _ hr)) ⟨p, hprest, hbad⟩
          with ⟨r, hr, hrbad, hfind⟩
        refine ⟨r, List.mem_cons_of_mem _ hr, hrbad, ?_⟩
        rw [pbFirstBad, List.findSome?_cons, if_neg hqg]
        exact hfind
      · refine ⟨q, List.mem_cons_self _ _, hql, ?_⟩
        rw [pbFirstBad, List.findSome?_cons, if_pos (Or.inl hql), hq]

theorem pbLowHigh_spec (a b : Val) :
    (∀ qa qb, a = Val.num qa → b = Val.num qb →
      pbLowHigh [a, b] = (Val.num (min qa qb), Val.num (max qa qb))) ∧
    (a.isNum = false ∨ b.isNum = false → pbLowHigh [a, b] = (a, b)) := by
  constructor
  · rintro qa qb rfl rfl
    simp [pbLowHigh, Val.isNum, vmin, vmax]
  · intro h
    have hall : ([a, b].all Val.isNum) = false := by
      rcases h with h | h <;> simp [h, List.all_cons]
    simp [pbLowHigh, hall]

/-- C9: Plackett-Burman generation fails with the cardinality error — naming
an offending factor and its distinct-level count — exactly when some factor
does not have exactly two distinct levels; when every factor has exactly two
distinct levels it succeeds, and (the coded matrix having only ±1 entries)
each factor column maps coded `-1` (the only code `≤ 0`) to the low level
and coded `+1` to the high level, where low/high is min/max for a numeric
factor and the first/second declared level otherwise. -/
theorem C9_plackett_burman (d : RawDict) (hne : d ≠ []) (m : List (List ℚ))
    (hm : ∀ mrow ∈ m, ∀ x ∈ mrow, x = -1 ∨ x = 1) :
    ((∃ p ∈ d, (unique_levels p.2).length ≠ 2) →
      ∃ p ∈ d, (unique_levels p.2).length ≠ 2 ∧
        pbExecute d m = .error (pbMsg p.1 (unique_levels p.2).length)) ∧
    ((∀ p ∈ d, (unique_levels p.2).length = 2) →
      ∃ data, pbExecute d m = .ok data ∧
        data.map Prod.fst = d.map Prod.fst ∧
        (∀ mrow ∈ m, ∀ j, j < mrow.length →
          (mrow.getD j 0 ≤ 0 ↔ mrow.getD j 0 = -1)) ∧
        (∀ i, i < d.length →
          (data.getD i ("", [])).2 = m.map (fun mrow =>
            if mrow.getD i 0 ≤ 0
            then (pbLowHigh (unique_levels (d.getD i ("", [])).2)).1
            else (pbLowHigh (unique_levels (d.getD i ("", [])).2)).2)) ∧
        (∀ a b : Val,
          (∀ qa qb, a = Val.num qa → b = Val.num qb →
            pbLowHigh [a, b] = (Val.num (min qa qb), Val.num (max qa qb))) ∧
          (a.isNum = false ∨ b.isNum = false → pbLowHigh [a, b] = (a, b)))) := by
  have hempty : d.isEmpty = false := by
    cases d with
    | nil => exact absurd rfl hne
    | cons a t => rfl
  have hndlm : ∀ p ∈ levelsMap d, p.2.Nodup := by
    intro p hp
    rcases List.mem_map.mp hp with ⟨q, _, rfl⟩
    exact unique_levels_nodup q.2
  constructor
  · rintro ⟨p, hp, hbad⟩
    have hbad' : ∃ r ∈ levelsMap d, r.2.length ≠ 2 :=
      ⟨(p.1, unique_levels p.2), List.mem_map.mpr ⟨p, hp, rfl⟩, hbad⟩
    rcases pbFirstBad_some_of_exists (levelsMap d) hndlm hbad' with ⟨r, hr, hrbad, hfind⟩
    rcases List.mem_map.mp hr with ⟨q, hq, rfl⟩
    refine ⟨q, hq, hrbad, ?_⟩
    unfold pbExecute
    rw [hempty]
    simp only [Bool.false_eq_true, if_false, hfind]
  · intro hall
    have hall' : ∀ p ∈ levelsMap d, p.2.length = 2 := by
      intro p hp
      rcases List.mem_map.mp hp with ⟨q, hq, rfl⟩
      exact hall q hq
    have hfind : pbFirstBad (levelsMap d) = none :=
      pbFirstBad_none_of_forall _ hndlm hall'
    refine ⟨(levelsMap d).mapIdx (fun j p =>
      (p.1, m.map (fun mrow =>
        if mrow.getD j 0 ≤ 0 then (pbLowHigh p.2).1 else (pbLowHigh p.2).2))),
      ?_, ?_, ?_, ?_, ?_⟩
    · unfold pbExecute
      rw [hempty]
      simp only [Bool.false_eq_true, if_false, hfind]
    · rw [map_mapIdx]
      have : (levelsMap d).mapIdx (fun _ p => p.1) = (levelsMap d).map Prod.fst :=
        mapIdx_of_const _ _
      rw [this, levelsMap, List.map_map]
      rfl
    · intro mrow hmrow j hj
      have hx := hm mrow hmrow (mrow.getD j 0) (by
        rw [List.getD_eq_getElem _ _ hj]
        exact List.getElem_mem hj)
      rcases hx with hx | hx
      · rw [hx]; norm_num
      · rw [hx]; norm_num
    · intro i hi
      have hilm : i < (levelsMap d).length := by simpa [levelsMap] using hi
      have hgd : ((levelsMap d).mapIdx (fun j p =>
          (p.1, m.map (fun mrow =>
            if mrow.getD j 0 ≤ 0 then (pbLowHigh p.2).1 else (pbLowHigh p.2).2)))).getD
            i ("", []) =
          (((levelsMap d).getD i ("", [])).1, m.map (fun mrow =>
            if mrow.getD i 0 ≤ 0 then (pbLowHigh ((levelsMap d).getD i ("", [])).2).1
            else (pbLowHigh ((levelsMap d).getD i ("", [])).2).2)) := by
        rw [List.getD_eq_getElem _ _ (by simpa [List.length_mapIdx] using hilm),
          List.getElem_mapIdx, List.getD_eq_getElem _ _ hilm]
      have hdl : (levelsMap d).getD i ("", []) =
          ((d.getD i ("", [])).1, unique_levels (d.getD i ("", [])).2) := by
        simp only [levelsMap] at hilm ⊢
        rw [List.getD_eq_getElem _ _ hilm, List.getElem_map,
          List.getD_eq_getElem d ("", []) hi]
      rw [hgd, hdl]
    · intro a b
      exact pbLowHigh_spec a b

/-- Witness for C9: one numeric two-level factor and the coded column
`[-1, 1]`. -/
theorem C9_plackett_burman_witness :
    ((∃ p ∈ [("speed", [some (Val.num 1), some (Val.num 2)])],
        (unique_levels p.2).length ≠ 2) →
      ∃ p ∈ [("speed", [some (Val.num 1), some (Val.num 2)])],
        (unique_levels p.2).length ≠ 2 ∧
        pbExecute [("speed", [some (Val.num 1), some (Val.num 2)])]
            [[-1], [1]] =
          .error (pbMsg p.1 (unique_levels p.2).length)) ∧
    ((∀ p ∈ [("speed", [some (Val.num 1), some (Val.num 2)])],
        (unique_levels p.2).length = 2) →
      ∃ data, pbExecute [("speed", [some (Val.num 1), some (Val.num 2)])]
          [[-1], [1]] = .ok data ∧
        data.map Prod.fst =
          [("speed", [some (Val.num 1), some (Val.num 2)])].map Prod.fst ∧
        (∀ mrow ∈ [[(-1 : ℚ)], [1]], ∀ j, j < mrow.length →
          (mrow.getD j 0 ≤ 0 ↔ mrow.getD j 0 = -1)) ∧
        (∀ i, i < [("speed", [some (Val.num 1), some (Val.num 2)])].length →
          (data.getD i ("", [])).2 = [[(-1 : ℚ)], [1]].map (fun mrow =>
            if mrow.getD i 0 ≤ 0
            then (pbLowHigh (unique_levels
              ([("speed", [some (Val.num 1), some (Val.num 2)])].getD
                i ("", [])).2)).1
            else (pbLowHigh (unique_levels
              ([("speed", [some (Val.num 1), some (Val.num 2)])].getD
                i ("", [])).2)).2)) ∧
        (∀ a b : Val,
          (∀ qa qb, a = Val.num qa → b = Val.num qb →
            pbLowHigh [a, b] = (Val.num (min qa qb), Val.num (max qa qb))) ∧
          (a.isNum = false ∨ b.isNum = false → pbLowHigh [a, b] = (a, b)))) :=
  C9_plackett_burman _ (by decide) _ (by decide)

/-! ### Lemmas: wide-to-long flattening -/

theorem flatten_eq (e : String) (ecol ccol : List Val)
    (data : List (String × List Val)) (n : ℕ)
    (he : ecol.length = n)
    (hnm : ∀ c ∈ data, c.1 ≠ "EXPERIMENT" ∧ c.1 ≠ "CONFIGURATION") :
    flatten e (("EXPERIMENT", ecol) :: ("CONFIGURATION", ccol) :: data) =
      ((List.range n).map (fun r => data.map (fun c =>
        ({ experiment := e
           configuration := ccol.getD r vdflt
           table := (parseCol c.1).table
           col_uniqueid := (parseCol c.1).col_uniqueid
           col_factor := (parseCol c.1).col_factor
           col_value := (parseCol c.1).col_value
           unique_identifier := (parseCol c.1).unique_identifier
           factor := (parseCol c.1).factor
           values := c.2.getD r vdflt } : LongRow)))).flatten := by
  have hfl : dfLen (("EXPERIMENT", ecol) :: ("CONFIGURATION", ccol) :: data) = n := by
    simpa [dfLen] using he
  have hfilter :
      (("EXPERIMENT", ecol) :: ("CONFIGURATION", ccol) :: data).filter
        (fun c => !(c.1 == "EXPERIMENT" || c.1 == "CONFIGURATION")) = data := by
    have h1 : (!((("EXPERIMENT", ecol) : String × List Val).1 == "EXPERIMENT" ||
        (("EXPERIMENT", ecol) : String × List Val).1 == "CONFIGURATION")) = false := rfl
    have h2 : (!((("CONFIGURATION", ccol) : String × List Val).1 == "EXPERIMENT" ||
        (("CONFIGURATION", ccol) : String × List Val).1 == "CONFIGURATION")) = false := rfl
    rw [List.filter_cons, List.filter_cons, h1, h2]
    simp only [Bool.false_eq_true, if_false]
    exact List.filter_eq_self.mpr (fun c hc => by
      have h := hnm c hc
      simp [h.1, h.2])
  have hlookup :
      lookupColumn (("EXPERIMENT", ecol) :: ("CONFIGURATION", ccol) :: data)
        "CONFIGURATION" = ccol := by
    rfl
  rw [flatten, hfl, hfilter, hlookup]

theorem flatten_length (e : String) (ecol ccol : List Val)
    (data : List (String × List Val)) (n : ℕ)
    (he : ecol.length = n)
    (hnm : ∀ c ∈ data, c.1 ≠ "EXPERIMENT" ∧ c.1 ≠ "CONFIGURATION") :
    (flatten e (("EXPERIMENT", ecol) :: ("CONFIGURATION", ccol) :: data)).length =
      n * data.length := by
  rw [flatten_eq e ecol ccol data n he hnm, List.length_flatten, List.map_map]
  have : ((fun l => List.length l) ∘ (fun r => data.map (fun c =>
      ({ experiment := e
         configuration := ccol.getD r vdflt
         table := (parseCol c.1).table
         col_uniqueid := (parseCol c.1).col_uniqueid
         col_factor := (parseCol c.1).col_factor
         col_value := (parseCol c.1).col_value
         unique_identifier := (parseCol c.1).unique_identifier
         factor := (parseCol c.1).factor
         values := c.2.getD r vdflt } : LongRow)))) = fun _ => data.length := by
    funext r
    simp
  rw [this, List.map_const', List.sum_replicate, List.length_range, smul_eq_mul]

/-- C6: flattening a wide design (the two metadata columns followed by the
factor columns, all of common length `n`) is total and order-preserving: the
long output has exactly `n * (columns - 2)` rows — one block per
configuration in row order, one row per non-metadata column in column order —
and its `VALUES` column is exactly the row-major enumeration of the wide
factor cells, so every wide cell appears exactly once. -/
theorem C6_flatten_total_order_preserving (e : String) (ecol ccol : List Val)
    (data : List (String × List Val)) (n : ℕ)
    (he : ecol.length = n) (hc : ccol.length = n)
    (hd : ∀ c ∈ data, c.2.length = n)
    (hnm : ∀ c ∈ data, c.1 ≠ "EXPERIMENT" ∧ c.1 ≠ "CONFIGURATION") :
    (flatten e (("EXPERIMENT", ecol) :: ("CONFIGURATION", ccol) :: data)).length =
      n * ((("EXPERIMENT", ecol) :: ("CONFIGURATION", ccol) :: data).length - 2) ∧
    (flatten e (("EXPERIMENT", ecol) :: ("CONFIGURATION", ccol) :: data)).map
        LongRow.values =
      ((List.range n).map (fun r => data.map (fun c => c.2.getD r vdflt))).flatten ∧
    flatten e (("EXPERIMENT", ecol) :: ("CONFIGURATION", ccol) :: data) =
      ((List.range n).map (fun r => data.map (fun c =>
        ({ experiment := e
           configuration := ccol.getD r vdflt
           table := (parseCol c.1).table
           col_uniqueid := (parseCol c.1).col_uniqueid
           col_factor := (parseCol c.1).col_factor
           col_value := (parseCol c.1).col_value
           unique_identifier := (parseCol c.1).unique_identifier
           factor := (parseCol c.1).factor
           values := c.2.getD r vdflt } : LongRow)))).flatten := by
  refine ⟨?_, ?_, flatten_eq e ecol ccol data n he hnm⟩
  · rw [flatten_length e ecol ccol data n he hnm]
    simp
  · rw [flatten_eq e ecol ccol data n he hnm, List.map_flatten, List.map_map]
    refine congrArg List.flatten (List.map_congr_left ?_)
    intro r _
    simp only [Function.comp, List.map_map]
    rfl

/-- Witness for C6 at a concrete two-factor one-row wide design. -/
theorem C6_flatten_total_order_preserving_witness :
    (flatten "exp" (("EXPERIMENT", [Val.str "exp"]) ::
        ("CONFIGURATION", [Val.str (configId 0)]) ::
        [("x", [Val.num 1]), ("tab:[u]a:[n]b:val", [Val.str "v"])])).length =
      1 * ((("EXPERIMENT", [Val.str "exp"]) ::
        ("CONFIGURATION", [Val.str (configId 0)]) ::
        [("x", [Val.num 1]), ("tab:[u]a:[n]b:val", [Val.str "v"])]).length - 2) ∧
    (flatten "exp" (("EXPERIMENT", [Val.str "exp"]) ::
        ("CONFIGURATION", [Val.str (configId 0)]) ::
        [("x", [Val.num 1]), ("tab:[u]a:[n]b:val", [Val.str "v"])])).map
        LongRow.values =
      ((List.range 1).map (fun r =>
        [("x", [Val.num 1]), ("tab:[u]a:[n]b:val", [Val.str "v"])].map
          (fun c => c.2.getD r vdflt))).flatten ∧
    flatten "exp" (("EXPERIMENT", [Val.str "exp"]) ::
        ("CONFIGURATION", [Val.str (configId 0)]) ::
        [("x", [Val.num 1]), ("tab:[u]a:[n]b:val", [Val.str "v"])]) =
      ((List.range 1).map (fun r =>
        [("x", [Val.num 1]), ("tab:[u]a:[n]b:val", [Val.str "v"])].map (fun c =>
          ({ experiment := "exp"
             configuration := [Val.str (configId 0)].getD r vdflt
             table := (parseCol c.1).table
             col_uniqueid := (parseCol c.1).col_uniqueid
             col_factor := (parseCol c.1).col_factor
             col_value := (parseCol c.1).col_value
             unique_identifier := (parseCol c.1).unique_identifier
             factor := (parseCol c.1).factor
             values := c.2.getD r vdflt } : LongRow)))).flatten :=
  C6_flatten_total_order_preserving "exp" _ _ _ 1 (by decide) (by decide)
    (by decide) (by decide)

theorem collectParts_fst_of_none :
    ∀ (parts : List String) (m : List (String × String)) (vc : String),
      (∀ p ∈ parts, parseBracket p = none) → (collectParts parts m vc).1 = m := by
  intro parts
  induction parts with
  | nil => intro m vc _; rfl
  | cons p rest ih =>
      intro m vc hbad
      have hp : parseBracket p = none := hbad p (List.mem_cons_self _ _)
      simp only [collectParts, hp]
      exact ih m p (fun q hq => hbad q (List.mem_cons_of_mem _ hq))

theorem parseColParts_no_labels (parts : List String)
    (hlen : parts.length ≠ 1)
    (hbad : ∀ part ∈ parts.tail, parseBracket part = none) :
    (parseColParts parts).col_uniqueid = "?" ∧
    (parseColParts parts).col_factor = "?" ∧
    (parseColParts parts).unique_identifier = "?" ∧
    (parseColParts parts).factor = "?" := by
  match parts with
  | [] => exact ⟨rfl, rfl, rfl, rfl⟩
  | [only] => exact absurd rfl hlen
  | a :: b :: t =>
      have hbad' : ∀ p ∈ b :: t, parseBracket p = none := by
        intro p hp
        exact hbad p (by simpa using hp)
      rcases hcp : collectParts (b :: t) [] "?" with ⟨lm, vc⟩
      have hlm : lm = [] := by
        have := collectParts_fst_of_none (b :: t) [] "?" hbad'
        rw [hcp] at this
        exact this
      subst hlm
      simp only [parseColParts, List.tail_cons, hcp, sortPairs, List.getD]
      exact ⟨rfl, rfl, rfl, rfl⟩

/-- C7: a malformed table-based column name — one with at least one colon
but no well-bracketed label segment (for example, an unmatched opening
bracket) — still flattens: parsing never raises (it is a total function),
the four label-derived fields of every long row of that column degrade to
the `"?"` sentinel, and the column's rows are still emitted (the long output
keeps exactly one row per configuration and non-metadata column). -/
theorem C7_malformed_name_sentinel (col : String)
    (hlen : (splitColon col).length ≠ 1)
    (hbad : ∀ part ∈ (splitColon col).tail, parseBracket part = none) :
    (parseCol col).col_uniqueid = "?" ∧
    (parseCol col).col_factor = "?" ∧
    (parseCol col).unique_identifier = "?" ∧
    (parseCol col).factor = "?" ∧
    (∀ (e : String) (ecol ccol : List Val) (data : List (String × List Val)) (n : ℕ),
      ecol.length = n →
      (∀ c ∈ data, c.1 ≠ "EXPERIMENT" ∧ c.1 ≠ "CONFIGURATION") →
      (flatten e (("EXPERIMENT", ecol) :: ("CONFIGURATION", ccol) :: data)).length =
        n * data.length) := by
  have h := parseColParts_no_labels (splitColon col) hlen hbad
  exact ⟨h.1, h.2.1, h.2.2.1, h.2.2.2,
    fun e ecol ccol data n he hnm => flatten_length e ecol ccol data n he hnm⟩

/-- Witness for C7 at the unmatched-bracket column name `"t:[AB"` inside a
one-row design. -/
theorem C7_malformed_name_sentinel_witness :
    (parseCol "t:[AB").col_uniqueid = "?" ∧
    (parseCol "t:[AB").col_factor = "?" ∧
    (parseCol "t:[AB").unique_identifier = "?" ∧
    (parseCol "t:[AB").factor = "?" ∧
    (∀ (e : String) (ecol ccol : List Val) (data : List (String × List Val)) (n : ℕ),
      ecol.length = n →
      (∀ c ∈ data, c.1 ≠ "EXPERIMENT" ∧ c.1 ≠ "CONFIGURATION") →
      (flatten e (("EXPERIMENT", ecol) :: ("CONFIGURATION", ccol) :: data)).length =
        n * data.length) :=
  C7_malformed_name_sentinel "t:[AB" (by decide) (by decide)

/-! ### Lemmas: column-name grammar on well-formed table-based names -/

theorem takeWhile_dropWhile_append {α : Type} (p : α → Bool) :
    ∀ (xs : List α) (y : α) (ys : List α), (∀ x ∈ xs, p x = true) → p y = false →
      (xs ++ y :: ys).takeWhile p = xs ∧ (xs ++ y :: ys).dropWhile p = y :: ys := by
  intro xs
  induction xs with
  | nil =>
      intro y ys _ hy
      simp [List.takeWhile_cons, List.dropWhile_cons, hy]
  | cons x xs' ih =>
      intro y ys hall hy
      have hx : p x = true := hall x (List.mem_cons_self _ _)
      have := ih y ys (fun z hz => hall z (List.mem_cons_of_mem _ hz)) hy
      simp [List.takeWhile_cons, List.dropWhile_cons, hx, this.1, this.2]

theorem toList_bracket (l v : String) :
    ("[" ++ l ++ "]" ++ v).toList = '[' :: (l.toList ++ ']' :: v.toList) := by
  have h1 : ("[" : String).data = ['['] := rfl
  have h2 : ("]" : String).data = [']'] := rfl
  show (("[" ++ l ++ "]" ++ v)).data = _
  simp [String.data_append, h1, h2, String.toList]

theorem parseBracket_bracketed (l v : String) (hl : ']' ∉ l.toList) :
    parseBracket ("[" ++ l ++ "]" ++ v) = some (l, v) := by
  have hall : ∀ x ∈ l.toList, (decide (x ≠ ']')) = true := by
    intro x hx
    simp only [decide_eq_true_eq]
    intro hmem
    exact hl (hmem ▸ hx)
  have hy : (decide ((']' : Char) ≠ ']')) = false := by simp
  have htd := takeWhile_dropWhile_append (fun c => decide (c ≠ ']'))
    l.toList ']' v.toList hall hy
  have hcont : (l.toList ++ ']' :: v.toList).contains ']' = true := by simp
  simp only [decide_not, String.toList] at htd
  rw [parseBracket, toList_bracket]
  simp [hcont, htd.1, htd.2, String.toList]

theorem splitColonAux_no_colon :
    ∀ (cs acc : List Char), ':' ∉ cs →
      splitColonAux cs acc = [⟨acc.reverse ++ cs⟩] := by
  intro cs
  induction cs with
  | nil => intro acc _; simp [splitColonAux]
  | cons c cs' ih =>
      intro acc hnc
      have hc : c ≠ ':' := fun h => hnc (h ▸ List.mem_cons_self _ _)
      rw [splitColonAux, if_neg hc, ih (c :: acc)
        (fun h => hnc (List.mem_cons_of_mem _ h))]
      simp

theorem splitColonAux_split :
    ∀ (cs rest acc : List Char), ':' ∉ cs →
      splitColonAux (cs ++ ':' :: rest) acc =
        ⟨acc.reverse ++ cs⟩ :: splitColonAux rest [] := by
  intro cs
  induction cs with
  | nil =>
      intro rest acc _
      rw [List.nil_append, splitColonAux, if_pos rfl]
      simp
  | cons c cs' ih =>
      intro rest acc hnc
      have hc : c ≠ ':' := fun h => hnc (h ▸ List.mem_cons_self _ _)
      rw [List.cons_append, splitColonAux, if_neg hc, ih rest (c :: acc)
        (fun h => hnc (List.mem_cons_of_mem _ h))]
      simp

theorem splitColon_fourWay (t p1 p2 vc : String)
    (ht : ':' ∉ t.toList) (h1 : ':' ∉ p1.toList) (h2 : ':' ∉ p2.toList)
    (h3 : ':' ∉ vc.toList) :
    splitColon (t ++ ":" ++ p1 ++ ":" ++ p2 ++ ":" ++ vc) = [t, p1, p2, vc] := by
  have hcolon : (":" : String).data = [':'] := rfl
  have hd : (t ++ ":" ++ p1 ++ ":" ++ p2 ++ ":" ++ vc).toList =
      t.toList ++ ':' :: (p1.toList ++ ':' :: (p2.toList ++ ':' :: vc.toList)) := by
    show (t ++ ":" ++ p1 ++ ":" ++ p2 ++ ":" ++ vc).data = _
    simp [String.data_append, hcolon, String.toList]
  rw [splitColon, hd, splitColonAux_split _ _ _ ht, splitColonAux_split _ _ _ h1,
    splitColonAux_split _ _ _ h2, splitColonAux_no_colon _ _ h3]
  simp [String.toList]

/-- C10: when the flattener parses a well-formed table-based column name
`table:[label1]value1:[label2]value2:valuecol`, each bracketed label is
upper-cased before entering the label map, and the pair assigned to
(`COL_UNIQUEID`, `UNIQUE IDENTIFIER`) versus (`COL_FACTOR`, `FACTOR`) is
decided by the alphabetical order of the upper-cased labels, not by their
position in the name: the smaller upper-cased label becomes the unique-id
pair, the larger one the factor pair. -/
theorem C10_labels_upper_cased_sorted
    (t l1 v1 l2 v2 vc : String)
    (ht : ':' ∉ t.toList)
    (hl1 : ':' ∉ l1.toList) (hv1 : ':' ∉ v1.toList)
    (hl2 : ':' ∉ l2.toList) (hv2 : ':' ∉ v2.toList)
    (hvcc : ':' ∉ vc.toList)
    (hb1 : ']' ∉ l1.toList) (hb2 : ']' ∉ l2.toList)
    (hne : pyUpper l1 ≠ pyUpper l2)
    (hvcb : parseBracket vc = none) :
    parseCol (t ++ ":" ++ ("[" ++ l1 ++ "]" ++ v1) ++ ":" ++
        ("[" ++ l2 ++ "]" ++ v2) ++ ":" ++ vc) =
      (if strLe (pyUpper l1) (pyUpper l2)
       then ⟨t, pyUpper l1, pyUpper l2, vc, v1, v2⟩
       else ⟨t, pyUpper l2, pyUpper l1, vc, v2, v1⟩ : ParsedCol) := by
  have hp1 : ':' ∉ ("[" ++ l1 ++ "]" ++ v1).toList := by
    rw [toList_bracket]
    intro h
    rcases List.mem_cons.mp h with h | h
    · exact absurd h.symm (by decide)
    · rcases List.mem_append.mp h with h | h
      · exact hl1 h
      · rcases List.mem_cons.mp h with h | h
        · exact absurd h.symm (by decide)
        · exact hv1 h
  have hp2 : ':' ∉ ("[" ++ l2 ++ "]" ++ v2).toList := by
    rw [toList_bracket]
    intro h
    rcases List.mem_cons.mp h with h | h
    · exact absurd h.symm (by decide)
    · rcases List.mem_append.mp h with h | h
      · exact hl2 h
      · rcases List.mem_cons.mp h with h | h
        · exact absurd h.symm (by decide)
        · exact hv2 h
  rw [parseCol, splitColon_fourWay t _ _ vc ht hp1 hp2 hvcc]
  have hbr1 := parseBracket_bracketed l1 v1 hb1
  have hbr2 := parseBracket_bracketed l2 v2 hb2
  by_cases hle : strLe (pyUpper l1) (pyUpper l2) = true
  · simp [parseColParts, collectParts, hbr1, hbr2, hvcb, upsert, hne,
      sortPairs, insertSorted, hle]
  · simp [parseColParts, collectParts, hbr1, hbr2, hvcb, upsert, hne,
      sortPairs, insertSorted, hle]

/-! ### Lemmas: decimal representation of naturals is injective -/

theorem toDigitsCore_eq_rep10 :
    ∀ (fuel n : ℕ) (acc : List Char), n < fuel →
      Nat.toDigitsCore 10 fuel n acc = rep10 n ++ acc := by
  intro fuel
  induction fuel with
  | zero => intro n acc h; omega
  | succ fuel ih =>
      intro n acc h
      by_cases h10 : n / 10 = 0
      · have hn : n < 10 := by omega
        rw [Nat.toDigitsCore]
        simp only [h10, if_true]
        rw [rep10, if_pos hn, Nat.mod_eq_of_lt hn]
        rfl
      · have hn : 10 ≤ n := by
          by_contra hc
          exact h10 (Nat.div_eq_of_lt (by omega))
        have hlt : n / 10 < fuel := by
          have : n / 10 < n := Nat.div_lt_self (by omega) (by omega)
          omega
        rw [Nat.toDigitsCore]
        simp only [h10, if_false]
        rw [ih (n / 10) _ hlt]
        conv_rhs => rw [rep10]
        rw [if_neg (show ¬ n < 10 by omega)]
        simp

theorem digitChar_toNat (d : ℕ) (h : d < 10) : (Nat.digitChar d).toNat = 48 + d := by
  interval_cases d <;> rfl

theorem digitsToNat_rep10 : ∀ n : ℕ, digitsToNat (rep10 n) = n := by
  intro n
  induction n using Nat.strong_induction_on with
  | _ n ih =>
      by_cases hn : n < 10
      · rw [rep10, if_pos hn]
        simp [digitsToNat, digitChar_toNat n hn]
      · rw [rep10, if_neg hn]
        have hdiv : n / 10 < n := Nat.div_lt_self (by omega) (by omega)
        have hmod : n % 10 < 10 := Nat.mod_lt _ (by omega)
        rw [digitsToNat, List.foldl_append]
        have hstep : List.foldl (fun a c => a * 10 + (c.toNat - 48))
            (digitsToNat (rep10 (n / 10))) [Nat.digitChar (n % 10)] =
            digitsToNat (rep10 (n / 10)) * 10 + (n % 10) := by
          simp [digitChar_toNat _ hmod]
        rw [show List.foldl (fun a c => a * 10 + (c.toNat - 48)) 0 (rep10 (n / 10)) =
            digitsToNat (rep10 (n / 10)) from rfl, hstep, ih _ hdiv]
        omega

theorem natRepr_inj (m n : ℕ) (h : Nat.repr m = Nat.repr n) : m = n := by
  have hm : Nat.repr m = ⟨rep10 m⟩ := by
    rw [Nat.repr, Nat.toDigits, toDigitsCore_eq_rep10 (m + 1) m [] (by omega)]
    simp [List.asString]
  have hn : Nat.repr n = ⟨rep10 n⟩ := by
    rw [Nat.repr, Nat.toDigits, toDigitsCore_eq_rep10 (n + 1) n [] (by omega)]
    simp [List.asString]
  rw [hm, hn] at h
  have hd := congrArg String.data h
  have := congrArg digitsToNat hd
  rwa [digitsToNat_rep10, digitsToNat_rep10] at this

theorem natToString_inj (m n : ℕ) (h : toString m = toString n) : m = n :=
  natRepr_inj m n h

/-! ### Lemmas: the encoding round trip -/

theorem find?_toString_enum {β : Type} (g : ℕ → β) :
    ∀ (js : List ℕ) (i : ℕ), i ∈ js →
      List.find? (fun p => p.1 == toString i)
          (js.map (fun j => (toString j, g j))) =
        some (toString i, g i) := by
  intro js
  induction js with
  | nil => intro i hi; simp at hi
  | cons j rest ih =>
      intro i hi
      by_cases hji : j = i
      · subst hji
        rw [List.map_cons]
        exact List.find?_cons_of_pos _ (by simp)
      · have hir : i ∈ rest := by
          rcases List.mem_cons.mp hi with rfl | h
          · exact absurd rfl hji
          · exact h
        rw [List.map_cons, List.find?_cons_of_neg _ (by
          simp only [beq_iff_eq]
          intro hc
          exact hji (natToString_inj _ _ hc))]
        exact ih i hir

theorem dictGet_enum {β : Type} (g : ℕ → β) (n i : ℕ) (hi : i < n) :
    dictGet ((List.range n).map (fun j => (toString j, g j))) (toString i) =
      some (g i) := by
  unfold dictGet
  rw [find?_toString_enum g (List.range n) i (List.mem_range.mpr hi)]
  rfl

theorem pyRound_natCast (i : ℕ) : pyRound ((i : ℕ) : ℚ) = i := by
  simp [pyRound, Rat.num_natCast, Rat.den_natCast, Int.fdiv_one]

theorem toString_intCast_nat (i : ℕ) : toString ((i : ℕ) : ℤ) = toString i := rfl

/-- C4: encoding an ordered list of string levels with
`factor_string_mapping` yields the positional codes `[0 .. n-1]` and a
reverse map keyed by the code formatted as a string; resolving a cell holding
a valid code — exactly as the label resolver does: float conversion,
rounding, integer truncation, string formatting, then map lookup — returns
the original label at that position, both through the wide-axis cell
resolver (`mapCell`) and the long-axis row resolver (`replace_value`);
mapping over a whole column of valid codes therefore reproduces the
corresponding label sequence. -/
theorem C4_encode_resolve_roundtrip (ls : List String) (i : ℕ)
    (hi : i < ls.length) :
    (factor_string_mapping ls).1 = List.range ls.length ∧
    (factor_string_mapping ls).2 =
      (List.range ls.length).map (fun j => (toString j, ls.getD j "")) ∧
    mapCell (factor_string_mapping ls).2 (some (Val.num i)) =
      .ok (some (Val.str (ls.getD i ""))) ∧
    (∀ (row : LongRow) (cname : String), row.col_value = cname →
      row.values = Val.num i →
      replace_value [(cname, (factor_string_mapping ls).2)] row =
        Val.str (ls.getD i "")) ∧
    (∀ codes : List ℕ, (∀ c ∈ codes, c < ls.length) →
      codes.map (fun c : ℕ =>
          mapCell (factor_string_mapping ls).2 (some (Val.num (c : ℚ)))) =
        codes.map (fun c => .ok (some (Val.str (ls.getD c ""))))) := by
  have hkey : ∀ c : ℕ, c < ls.length →
      dictGet (factor_string_mapping ls).2 (toString (pyRound ((c : ℕ) : ℚ))) =
        some (ls.getD c "") := by
    intro c hc
    rw [pyRound_natCast, toString_intCast_nat]
    exact dictGet_enum (fun j => ls.getD j "") ls.length c hc
  have hcell : ∀ c : ℕ, c < ls.length →
      mapCell (factor_string_mapping ls).2 (some (Val.num c)) =
        .ok (some (Val.str (ls.getD c ""))) := by
    intro c hc
    rw [mapCell]
    simp only [pyFloat]
    rw [hkey c hc]
  refine ⟨rfl, rfl, hcell i hi, ?_, ?_⟩
  · intro row cname hcv hval
    rw [replace_value]
    have hfind : dictGet [(cname, (factor_string_mapping ls).2)] row.col_value =
        some (factor_string_mapping ls).2 := by
      rw [hcv]
      unfold dictGet
      rw [List.find?_cons_of_pos _ (by simp)]
      rfl
    have hnempty : ((factor_string_mapping ls).2).isEmpty = false := by
      cases hm : (factor_string_mapping ls).2 with
      | nil =>
          have h0 := congrArg List.length hm
          simp only [factor_string_mapping, List.length_map, List.length_range,
            List.length_nil] at h0
          omega
      | cons a t => rfl
    rw [hfind, hval]
    simp [pyFloat, hnempty, hkey i hi]
  · intro codes hcodes
    exact List.map_congr_left (fun c hc => hcell c (hcodes c hc))

/-- Witness for C4 at the levels `["Low", "High"]` and the code `1`. -/
theorem C4_encode_resolve_roundtrip_witness :
    (factor_string_mapping ["Low", "High"]).1 = List.range 2 ∧
    (factor_string_mapping ["Low", "High"]).2 =
      (List.range 2).map (fun j => (toString j, ["Low", "High"].getD j "")) ∧
    mapCell (factor_string_mapping ["Low", "High"]).2 (some (Val.num 1)) =
      .ok (some (Val.str (["Low", "High"].getD 1 ""))) ∧
    (∀ (row : LongRow) (cname : String), row.col_value = cname →
      row.values = Val.num 1 →
      replace_value [(cname, (factor_string_mapping ["Low", "High"]).2)] row =
        Val.str (["Low", "High"].getD 1 "")) ∧
    (∀ codes : List ℕ, (∀ c ∈ codes, c < ["Low", "High"].length) →
      codes.map (fun c : ℕ =>
        mapCell (factor_string_mapping ["Low", "High"]).2
          (some (Val.num (c : ℚ)))) =
        codes.map (fun c => .ok (some (Val.str (["Low", "High"].getD c ""))))) :=
  C4_encode_resolve_roundtrip ["Low", "High"] 1 (by decide)

/-- C5 counterexample: in wide-axis mode a non-numeric cell (`"red"`) in a
column that has a stored mapping makes label resolution raise (the `float`
conversion in the axis-0 lambda is not guarded), instead of leaving the cell
untouched. -/
theorem C5_counterexample :
    doe_string_mapping_axis0 [("x", [some (Val.str "red")])]
        [("factor-mapping_x", [("0", "Low")])] =
      .error (floatErrMsg "red") := by decide

/-- C5 amended: long-axis label resolution never raises — it is total,
preserves the row count, and any conversion failure (non-numeric cell,
missing or empty mapping, or a code with no entry) leaves the original value
untouched; wide-axis resolution leaves the `CONFIGURATION` column and any
column without a stored non-empty mapping untouched and passes missing
(`NaN`) cells through, but raises on a non-numeric cell of a mapped
column. -/
theorem C5_label_resolution_amended :
    (∀ (rows : List LongRow) (fv : List (String × List (String × String))),
      (doe_string_mapping_axis1 rows fv).length = rows.length) ∧
    (∀ (fv : List (String × List (String × String))) (row : LongRow),
      pyFloat row.values = none ∨
        dictGet (extractMappings fv) row.col_value = none ∨
        dictGet (extractMappings fv) row.col_value = some [] →
      replace_value (extractMappings fv) row = row.values) ∧
    (∀ (fv : List (String × List (String × String))) (row : LongRow)
        (m : List (String × String)) (q : ℚ),
      dictGet (extractMappings fv) row.col_value = some m →
      pyFloat row.values = some q →
      dictGet m (toString (pyRound q)) = none →
      replace_value (extractMappings fv) row = row.values) ∧
    (∀ (mappings : List (String × List (String × String)))
        (c : String × List (Option Val)),
      c.1 = "CONFIGURATION" ∨
        dictGet mappings ((splitColon c.1).getLastD "") = none →
      axis0Col mappings c = .ok c) ∧
    (∀ mapping : List (String × String), mapCell mapping none = .ok none) ∧
    (∀ (mapping : List (String × String)) (s : String), parseDecimal s = none →
      mapCell mapping (some (Val.str s)) = .error (floatErrMsg s)) := by
  refine ⟨?_, ?_, ?_, ?_, ?_, ?_⟩
  · intro rows fv
    rw [doe_string_mapping_axis1, List.length_map]
  · intro fv row h
    rcases hd : dictGet (extractMappings fv) row.col_value with _ | m
    · simp only [replace_value, hd]
    · simp only [replace_value, hd]
      rcases h with h | h | h
      · by_cases hm : m.isEmpty
        · simp [hm]
        · simp [hm, h]
      · rw [hd] at h
        exact absurd h (by simp)
      · rw [hd] at h
        have hml : m = [] := by injection h
        subst hml
        simp
  · intro fv row m q hd hf hkey
    simp only [replace_value, hd]
    by_cases hm : m.isEmpty
    · simp [hm]
    · simp [hm, hf, hkey]
  · intro mappings c h
    by_cases hcfg : c.1 = "CONFIGURATION"
    · rw [axis0Col, if_pos hcfg]
    · rcases h with h | h
      · exact absurd h hcfg
      · simp only [axis0Col, if_neg hcfg, h]
  · intro mapping
    rfl
  · intro mapping s h
    simp only [mapCell, pyFloat, h]

/-- Witness for the amended C5: a non-numeric long row passes through
unchanged, the `CONFIGURATION` column is skipped, a missing cell passes
through, and the wide-axis cell resolver raises on `"red"`. -/
theorem C5_label_resolution_amended_witness :
    replace_value
        (extractMappings [("factor-mapping_x", [("0", "Low")])])
        ({ experiment := "e", configuration := Val.str "c", table := "t",
           col_uniqueid := "?", col_factor := "?", col_value := "x",
           unique_identifier := "?", factor := "?",
           values := Val.str "red" } : LongRow) =
      ({ experiment := "e", configuration := Val.str "c", table := "t",
         col_uniqueid := "?", col_factor := "?", col_value := "x",
         unique_identifier := "?", factor := "?",
         values := Val.str "red" } : LongRow).values ∧
    axis0Col [] ("CONFIGURATION", [some (Val.num 1)]) =
      .ok ("CONFIGURATION", [some (Val.num 1)]) ∧
    mapCell [("0", "Low")] none = .ok none ∧
    mapCell [("0", "Low")] (some (Val.str "red")) = .error (floatErrMsg "red") :=
  ⟨C5_label_resolution_amended.2.1 [("factor-mapping_x", [("0", "Low")])] _
      (Or.inl (by decide)),
    C5_label_resolution_amended.2.2.2.1 [] ("CONFIGURATION", [some (Val.num 1)])
      (Or.inl rfl),
    C5_label_resolution_amended.2.2.2.2.1 [("0", "Low")],
    C5_label_resolution_amended.2.2.2.2.2 [("0", "Low")] "red" (by decide)⟩

/-- Witness for C10: `tab:[b]1:[A]2:val` — the label `b` comes first in the
name, but `A` (the upper-cased second label) sorts first and becomes the
unique-id pair. -/
theorem C10_labels_upper_cased_sorted_witness :
    parseCol ("tab" ++ ":" ++ ("[" ++ "b" ++ "]" ++ "1") ++ ":" ++
        ("[" ++ "A" ++ "]" ++ "2") ++ ":" ++ "val") =
      (if strLe (pyUpper "b") (pyUpper "A")
       then ⟨"tab", pyUpper "b", pyUpper "A", "val", "1", "2"⟩
       else ⟨"tab", pyUpper "A", pyUpper "b", "val", "2", "1"⟩ : ParsedCol) :=
  C10_labels_upper_cased_sorted "tab" "b" "1" "A" "2" "val"
    (by decide) (by decide) (by decide) (by decide) (by decide) (by decide)
    (by decide) (by decide) (by decide) (by decide)

end DoE
